import Mathlib

/-!
A verification development for the props-model property store
(class PropsModel in the repository source).

The embedding is shallow: property values are an inductive JS-like value
type, the mutable store is an explicit state record, and the synchronous
event-emitter cascade (set, emit, listener, nested set, one aggregated
prop-chain-completed notification per outermost chain) is an interpreter
indexed by a fuel bound on the recursion depth of the call stack.  The
interpreter is structurally recursive on the fuel, so concrete runs reduce
by evaluation; a run that returns none only means the fuel bound was too
small, never an error of the modelled program.

Listeners are modelled deeply, by the three closure shapes the source
itself registers on the emitter:
  - defineDerivedProp registers, on every dependency channel, a closure
    that recomputes the derived value and re-enters set;
  - definePropView registers, on the base channel, a closure that
    recomputes the view unless the view pair's triggered flag is up, and,
    on the view channel, a closure that reduces a new base value, raises
    the triggered flag, writes the base, and lowers the flag.
-/

namespace PropsModel

/-- JS-like primitive property values.  The source treats values as opaque
payloads compared with strict inequality by the default change predicate;
these constructors cover undefined, null, booleans, numbers and strings. -/
inductive Val where
  | vUndefined
  | vNull
  | vBool (b : Bool)
  | vNum (n : Int)
  | vStr (s : String)
deriving DecidableEq

/-- Kinds of errors thrown by the modelled code (JS throw), by meaning:
unknown property name, facade access denial, value-validator rejection,
duplicate definition, and the TypeError the standard write validator would
hit on a missing property (unreachable through set, which checks existence
first). -/
inductive Err where
  | noSuchProperty (name : String)
  | accessDenied (name : String)
  | validationFailed (name : String)
  | duplicateProperty (name : String)
  | typeError (name : String)
deriving DecidableEq

/-- Observable events emitted on the event emitter: one per-property
changed event (channel propName-changed, payload name/new/old), and the
store-wide prop-chain-completed event with the list of fired names. -/
inductive Ev where
  | changed (name : String) (newValue oldValue : Val)
  | chainCompleted (names : List String)
deriving DecidableEq

/-- The three listener closures the source registers on the emitter.
hDerived target deps compute is the closure registered by
defineDerivedProp on each dependency channel; hViewCalc and hViewReduce
are the two closures registered by definePropView on the base channel and
the view channel respectively. -/
inductive Handler where
  | hDerived (target : String) (deps : List String) (compute : List Val → Val)
  | hViewCalc (viewName viewOf : String) (calcView : Val → Val)
  | hViewReduce (viewName viewOf : String)
      (reduceBase : (String → Val) → Val → Val → Val)

/-- One property record: current value, derived flag, value validator
(true means the validator returns, false means it throws), and the
didChange change predicate. -/
structure PropEntry where
  value : Val
  derived : Bool
  validator : Val → Bool
  didChange : Val → Val → Bool

/-- The whole mutable state: the _props mapping in definition order, the
emitter's listener registry in registration order (channel name paired
with the listener), the _firedProps set as an insertion-ordered duplicate
free list, the set of view names whose triggered flag is currently true,
and the log of all events emitted so far (for observation). -/
structure MState where
  props : List (String × PropEntry)
  registry : List (String × Handler)
  firedProps : List String
  triggered : List String
  log : List Ev

/-- A property-name validator as passed to _set and _get: none grants
access, some e throws e.  It may read the current state, as the standard
write validator does. -/
abbrev PV := MState → String → Option Err

/-- A pending change event: name, new value, old value. -/
abbrev ChangeEv := String × Val × Val

/-- Result of running an operation: none means the fuel bound was
exhausted; some (s, none) is normal completion in state s; some (s, some
e) means the JS code threw e leaving state s (mutations made before the
throw persist, nothing in the source catches). -/
abbrev Res := Option (MState × Option Err)

/-- Sequencing that propagates both fuel exhaustion and thrown errors,
matching synchronous JS control flow. -/
def andThen (r : Res) (k : MState → Res) : Res :=
  match r with
  | none => none
  | some (s, some e) => some (s, some e)
  | some (s, none) => k s

/-- Lookup in the _props association list. -/
def getPropIn : List (String × PropEntry) → String → Option PropEntry
  | [], _ => none
  | (k, e) :: rest, name => if k = name then some e else getPropIn rest name

def getProp (s : MState) (name : String) : Option PropEntry :=
  getPropIn s.props name

/-- Current value of a property; vUndefined for a missing name (a missing
name is never read through this in stores built by the API, since set and
get check existence and dependencies must exist at definition time). -/
def getVal (s : MState) (name : String) : Val :=
  match getProp s name with
  | some e => e.value
  | none => Val.vUndefined

/-- In-place update of the value field of an existing property, keeping
definition order; a missing name is left untouched (the source only
assigns after an existence check). -/
def setValueIn : List (String × PropEntry) → String → Val → List (String × PropEntry)
  | [], _, _ => []
  | (k, e) :: rest, name, v =>
    if k = name then (k, { e with value := v }) :: rest
    else (k, e) :: setValueIn rest name v

def setValue (s : MState) (name : String) (v : Val) : MState :=
  { s with props := setValueIn s.props name v }

/-- The listeners registered for one channel, in registration order, as
the emitter delivers them. -/
def listenersFor : List (String × Handler) → String → List Handler
  | [], _ => []
  | (c, h) :: rest, name =>
    if c = name then h :: listenersFor rest name else listenersFor rest name

/-- The _firedProps add: insertion-ordered, duplicates collapsed. -/
def addFired (fired : List String) (name : String) : List String :=
  if name ∈ fired then fired else fired ++ [name]

/-- Lowering a view pair's triggered flag (boolean assignment false). -/
def clearFlag (flags : List String) (name : String) : List String :=
  flags.filter (fun x => x != name)

/-- First unknown key, in iteration order (the existence pass of bulk
_set and the unknown-dependency check of createUtilizer). -/
def firstMissing (s : MState) : List String → Option String
  | [] => none
  | k :: rest =>
    match getProp s k with
    | none => some k
    | some _ => firstMissing s rest

/-- First error raised by the property validator over the keys, in
iteration order (the authorization pass of bulk _set). -/
def firstPvErr (pv : PV) (s : MState) : List String → Option Err
  | [] => none
  | k :: rest =>
    match pv s k with
    | some e => some e
    | none => firstPvErr pv s rest

/-- First key whose value validator rejects its proposed value, in
iteration order (the validation pass of bulk _set). -/
def firstInvalid (s : MState) : List (String × Val) → Option String
  | [] => none
  | (k, v) :: rest =>
    match getProp s k with
    | some e => if e.validator v then firstInvalid s rest else some k
    | none => firstInvalid s rest

/-- The assignment pass of bulk _set: assigns every entry in iteration
order, collecting each old value just before its assignment, exactly as
the source's forEach with the oldValues accumulator does. -/
def assignAll : MState → List (String × Val) → MState × List Val
  | s, [] => (s, [])
  | s, (k, v) :: rest =>
    let old := getVal s k
    let (s', olds) := assignAll (setValue s k v) rest
    (s', old :: olds)

/-- The change-event list of bulk _set: entries zipped with their old
values, kept when the property's didChange reports a change, in iteration
order of the input mapping. -/
def changeEventsOf (s : MState) : List (String × Val) → List Val → List ChangeEv
  | (k, v) :: rest, old :: olds =>
    let tail := changeEventsOf s rest olds
    match getProp s k with
    | some e => if e.didChange v old then (k, v, old) :: tail else tail
    | none => tail
  | _, _ => []

/-- The property validator used for the store's own calls (the public
set/get methods pass an always-granting validator). -/
def noopPV : PV := fun _ _ => none

/-- The actions of the interpreter: the two _set signatures, the
_firePropChangeEvents helper, its iteration over the pending events, and
the emitter delivering a channel's listener list / one listener. -/
inductive Act where
  | aSet (name : String) (v : Val)
  | aSetBulk (entries : List (String × Val))
  | aFire (evs : List ChangeEv)
  | aFireList (evs : List ChangeEv)
  | aRunHandlers (hs : List Handler) (name : String) (nv ov : Val)
  | aRunHandler (h : Handler) (name : String) (nv ov : Val)

/-- The interpreter.  Structurally recursive on the fuel; every recursive
call (including nested re-entrant set calls made by listeners) uses one
unit of fuel, so any terminating JS execution is reproduced exactly by a
large enough fuel.

aSet is the single-property _set path: existence check, then the property
validator, then the value validator, then unconditional assignment, then
a change event only if didChange reports a change.

aSetBulk is the bulk _set path: all existence checks, then all property
validator checks, then all value validator runs, then all assignments,
then _firePropChangeEvents on the didChange-filtered events in input
order.

aFire is _firePropChangeEvents: remembers whether _firedProps was empty
(first in chain), delivers all events, and if first in chain emits one
prop-chain-completed event with the accumulated fired names and clears
the batch.

aFireList delivers the events one by one: add the name to _firedProps,
emit the changed event, run the channel's listeners synchronously.

aRunHandler executes one registered closure: a derived-property
recomputation (re-entering set with the compute of the contemporary
dependency values), a view recomputation guarded by the triggered flag,
or a view write-back that raises the flag, reduces and sets the base, and
lowers the flag (the flag stays up if the nested set throws, as in the
source, which has no finally). -/
def run : Nat → PV → Act → MState → Res
  | 0, _, _, _ => none
  | fuel + 1, pv, .aSet name v, s =>
    match getProp s name with
    | none => some (s, some (.noSuchProperty name))
    | some entry =>
      match pv s name with
      | some e => some (s, some e)
      | none =>
        if entry.validator v then
          let oldValue := entry.value
          let s1 := setValue s name v
          if entry.didChange v oldValue then
            run fuel noopPV (.aFire [(name, v, oldValue)]) s1
          else some (s1, none)
        else some (s, some (.validationFailed name))
  | fuel + 1, pv, .aSetBulk entries, s =>
    match firstMissing s (entries.map Prod.fst) with
    | some m => some (s, some (.noSuchProperty m))
    | none =>
      match firstPvErr pv s (entries.map Prod.fst) with
      | some e => some (s, some e)
      | none =>
        match firstInvalid s entries with
        | some bad => some (s, some (.validationFailed bad))
        | none =>
          let (s1, olds) := assignAll s entries
          run fuel noopPV (.aFire (changeEventsOf s1 entries olds)) s1
  | fuel + 1, _, .aFire evs, s =>
    let firstInChain := s.firedProps.isEmpty
    andThen (run fuel noopPV (.aFireList evs) s) (fun s1 =>
      if firstInChain then
        some ({ s1 with
                  log := s1.log ++ [.chainCompleted s1.firedProps],
                  firedProps := [] }, none)
      else some (s1, none))
  | _ + 1, _, .aFireList [], s => some (s, none)
  | fuel + 1, _, .aFireList ((name, nv, ov) :: rest), s =>
    let s1 := { s with
                  firedProps := addFired s.firedProps name,
                  log := s.log ++ [.changed name nv ov] }
    andThen (run fuel noopPV (.aRunHandlers (listenersFor s1.registry name) name nv ov) s1)
      (fun s2 => run fuel noopPV (.aFireList rest) s2)
  | _ + 1, _, .aRunHandlers [] _ _ _, s => some (s, none)
  | fuel + 1, _, .aRunHandlers (h :: rest) name nv ov, s =>
    andThen (run fuel noopPV (.aRunHandler h name nv ov) s)
      (fun s1 => run fuel noopPV (.aRunHandlers rest name nv ov) s1)
  | fuel + 1, _, .aRunHandler (.hDerived target deps compute) _ _ _, s =>
    run fuel noopPV (.aSet target (compute (deps.map (getVal s)))) s
  | fuel + 1, _, .aRunHandler (.hViewCalc viewName viewOf calcView) _ _ _, s =>
    if viewName ∈ s.triggered then some (s, none)
    else run fuel noopPV (.aSet viewName (calcView (getVal s viewOf))) s
  | fuel + 1, _, .aRunHandler (.hViewReduce viewName viewOf reduceBase) _ nv _, s =>
    let newBase := reduceBase (getVal s) nv (getVal s viewOf)
    andThen
      (run fuel noopPV (.aSet viewOf newBase)
        { s with triggered := viewName :: s.triggered })
      (fun s2 => some ({ s2 with triggered := clearFlag s2.triggered viewName }, none))

/-- The _get path: the property validator runs first, then the existence
check, then the value is returned (note the order differs from _set,
which checks existence before authorization). -/
def doGet (pv : PV) (s : MState) (name : String) : Except Err Val :=
  match pv s name with
  | some e => Except.error e
  | none =>
    match getProp s name with
    | none => Except.error (.noSuchProperty name)
    | some entry => Except.ok entry.value

/-- The default value validator (NOOP: allows everything). -/
def alwaysOk : Val → Bool := fun _ => true

/-- The default didChange predicate: newValue strictly unequal to
oldValue. -/
def defaultDidChange : Val → Val → Bool := fun newValue oldValue => newValue != oldValue

/-- The public-name test of propNameIsPublic: the source asks whether the
name starts with an underscore; modelled as the first character of the
name being an underscore, which is the same predicate. -/
def startsWithUnderscore (name : String) : Bool :=
  name.data.head? == some '_'

/-- The read validator of the standard public facade
(assertPropNameIsPublic): names beginning with an underscore are denied. -/
def publicReadPV : PV := fun _ name =>
  if startsWithUnderscore name then some (.accessDenied name) else none

/-- createStandardWriteValidator: throws iff the property is derived (on a
missing name the JS code would hit a TypeError reading the derived flag;
the set paths never reach that, having checked existence first). -/
def standardWritePV : PV := fun s name =>
  match getProp s name with
  | some e => if e.derived then some (.accessDenied name) else none
  | none => some (.typeError name)

/-- The write validator of the standard public facade: public-name
assertion first, then the standard derived-property write denial. -/
def publicWritePV : PV := fun s name =>
  match publicReadPV s name with
  | some e => some e
  | none => standardWritePV s name

/-- defineProp: duplicate check, registration of the primary property
record, and the initial change event (from vUndefined) when didChange
reports one. -/
def defineProp (fuel : Nat) (s : MState) (name : String) (initialValue : Val)
    (validator : Val → Bool) (didChange : Val → Val → Bool) : Res :=
  match getProp s name with
  | some _ => some (s, some (.duplicateProperty name))
  | none =>
    let s1 := { s with props := s.props ++ [(name, ⟨initialValue, false, validator, didChange⟩)] }
    if didChange initialValue .vUndefined then
      run fuel noopPV (.aFire [(name, initialValue, .vUndefined)]) s1
    else some (s1, none)

/-- defineDerivedProp: duplicate check, unknown-dependency check (from
createUtilizer), initial value (the given one unless it is undefined, in
which case compute is applied to the contemporary dependency values in
the given order), registration of the record with a never-throwing value
validator, registration of the recomputation listener on every dependency
channel occurrence, then the initial change event. -/
def defineDerivedProp (fuel : Nat) (s : MState) (name : String) (dependsOn : List String)
    (compute : List Val → Val) (initialValue : Val) (didChange : Val → Val → Bool) : Res :=
  match getProp s name with
  | some _ => some (s, some (.duplicateProperty name))
  | none =>
    match firstMissing s dependsOn with
    | some m => some (s, some (.noSuchProperty m))
    | none =>
      let value :=
        if initialValue = Val.vUndefined then compute (dependsOn.map (getVal s))
        else initialValue
      let s1 := { s with props := s.props ++ [(name, (⟨value, true, alwaysOk, didChange⟩ : PropEntry))] }
      let s2 := { s1 with
                    registry := s1.registry ++
                      dependsOn.map (fun p => (p, Handler.hDerived name dependsOn compute)) }
      if didChange value .vUndefined then
        run fuel noopPV (.aFire [(name, value, .vUndefined)]) s2
      else some (s2, none)

/-- definePropView: duplicate check, base-existence check (from
createUtilizer), initial view value computed from the base, registration
of the record, registration of the guarded recomputation listener on the
base channel and of the write-back listener on the view channel, then the
initial change event (which can already cascade through the write-back,
as in the source). -/
def definePropView (fuel : Nat) (s : MState) (viewName viewOf : String)
    (calcView : Val → Val) (reduceBase : (String → Val) → Val → Val → Val)
    (didChange : Val → Val → Bool) : Res :=
  match getProp s viewName with
  | some _ => some (s, some (.duplicateProperty viewName))
  | none =>
    match getProp s viewOf with
    | none => some (s, some (.noSuchProperty viewOf))
    | some _ =>
      let value := calcView (getVal s viewOf)
      let s1 := { s with props := s.props ++ [(viewName, (⟨value, true, alwaysOk, didChange⟩ : PropEntry))] }
      let s2 := { s1 with
                    registry := s1.registry ++
                      [(viewOf, Handler.hViewCalc viewName viewOf calcView),
                       (viewName, Handler.hViewReduce viewName viewOf reduceBase)] }
      if didChange value .vUndefined then
        run fuel noopPV (.aFire [(viewName, value, .vUndefined)]) s2
      else some (s2, none)

/-- One external set operation, in either signature. -/
inductive Op where
  | single (name : String) (v : Val)
  | bulk (entries : List (String × Val))

def runOp (fuel : Nat) (pv : PV) (op : Op) (s : MState) : Res :=
  match op with
  | .single name v => run fuel pv (.aSet name v) s
  | .bulk entries => run fuel pv (.aSetBulk entries) s

/-- The store as constructed: no properties, no listeners, empty batch. -/
def emptyState : MState := ⟨[], [], [], [], []⟩

/-- State extraction for concrete runs (used only at concrete inputs where
the run is known to complete normally). -/
def okState : Res → Option MState
  | some (s, none) => some s
  | _ => none

def okVal (r : Res) (name : String) : Option Val :=
  (okState r).map (fun s => getVal s name)

def okLog (r : Res) : Option (List Ev) :=
  (okState r).map MState.log

/-- Names of the changed events in a log fragment. -/
def changedNames (l : List Ev) : List String :=
  l.filterMap (fun ev => match ev with
    | .changed n _ _ => some n
    | _ => none)

/-- Number of aggregated settle notifications in a log fragment. -/
def countChain (l : List Ev) : Nat :=
  (l.filter (fun ev => match ev with
    | .chainCompleted _ => true
    | _ => false)).length

/-- Number of changed events for one property in a log fragment. -/
def countChangedOf (l : List Ev) (name : String) : Nat :=
  (l.filter (fun ev => match ev with
    | .changed n _ _ => n = name
    | _ => false)).length

/-- The property a listener writes when it runs: a derived recomputation
writes its own property, a view recomputation writes the view, a view
write-back writes the base. -/
def Handler.writes : Handler → String
  | .hDerived target _ _ => target
  | .hViewCalc viewName _ _ => viewName
  | .hViewReduce _ viewOf _ => viewOf

/-- Whether a top-level set invokes _firePropChangeEvents at all: the
bulk path always does (even with an empty event list), the single path
only when the property's didChange reports a change against the current
value. -/
def opFiresDirect (s : MState) : Op → Prop
  | .single name v => ∃ e, getProp s name = some e ∧ e.didChange v e.value = true
  | .bulk _ => True

/-- A view/base pair in isolation, as definePropView leaves it when the
view is defined over one primary base property: base b (primary, default
never-throwing validator), view w (derived flag set, never-throwing
validator), the guarded recomputation listener on the base channel and
the write-back listener on the view channel, no chain in progress. -/
def pairState (calcView : Val → Val) (reduceBase : (String → Val) → Val → Val → Val)
    (dcB dcW : Val → Val → Bool) (bval wval : Val) : MState :=
  ⟨[("b", ⟨bval, false, alwaysOk, dcB⟩), ("w", ⟨wval, true, alwaysOk, dcW⟩)],
   [("b", .hViewCalc "w" "b" calcView), ("w", .hViewReduce "w" "b" reduceBase)],
   [], [], []⟩

/-- The state of the view/base pair at the moment the write-back listener
runs during a set of the view: the view value is already assigned, the
view-changed event is recorded and emitted, the flag is still down. -/
def pairMid (calcView : Val → Val) (reduceBase : (String → Val) → Val → Val → Val)
    (dcB dcW : Val → Val → Bool) (bval wval v : Val) : MState :=
  ⟨[("b", ⟨bval, false, alwaysOk, dcB⟩), ("w", ⟨v, true, alwaysOk, dcW⟩)],
   [("b", .hViewCalc "w" "b" calcView), ("w", .hViewReduce "w" "b" reduceBase)],
   ["w"], [], [.changed "w" v wval]⟩

/-- The base value the write-back listener computes during a set of the
view: the reducer applied to the read access over the contemporary store
(view already assigned), the new view value, and the current base value. -/
def pairNewBase (calcView : Val → Val) (reduceBase : (String → Val) → Val → Val → Val)
    (dcB dcW : Val → Val → Bool) (bval wval v : Val) : Val :=
  reduceBase (getVal (pairMid calcView reduceBase dcB dcW bval wval v)) v
    (getVal (pairMid calcView reduceBase dcB dcW bval wval v) "b")

/-- Compute function used by concrete fixtures: one numeric dependency
plus one. -/
def plusOne : List Val → Val
  | [Val.vNum n] => Val.vNum (n + 1)
  | _ => Val.vNull

/-- Fixture: a store with one primary property a = 0 whose didChange
always reports no change (an arbitrary caller-supplied predicate). -/
def noChangeRes : Res :=
  defineProp 20 emptyState "a" (.vNum 0) alwaysOk (fun _ _ => false)

def noChangeState : MState := (okState noChangeRes).getD emptyState

/-- Fixture: a store with one primary property a = 0 with the default
validator and change predicate. -/
def oneProcRes : Res :=
  defineProp 20 emptyState "a" (.vNum 0) alwaysOk defaultDidChange

def onePropState : MState := (okState oneProcRes).getD emptyState

/-- Fixture: primary b = 0, then a view w of b with the identity
calculation and a reducer that always produces 100 (a reducer the
caller contract discourages, but nothing enforces). -/
def viewCexRes : Res :=
  andThen (defineProp 20 emptyState "b" (.vNum 0) alwaysOk defaultDidChange)
    (fun s => definePropView 20 s "w" "b" (fun x => x)
      (fun _ _ _ => .vNum 100) defaultDidChange)

def viewCexState : MState := (okState viewCexRes).getD emptyState

/-- Fixture: primary a = 0 (defaults), and a derived d = a + 1. -/
def derivedOkRes : Res :=
  andThen (defineProp 20 emptyState "a" (.vNum 0) alwaysOk defaultDidChange)
    (fun s => defineDerivedProp 20 s "d" ["a"] plusOne .vUndefined defaultDidChange)

def derivedOkState : MState := (okState derivedOkRes).getD emptyState

/-- Fixture: primary a = 0 rejecting null values, primary b = 0 with the
default validator, both with the default change predicate. -/
def bulkRes : Res :=
  andThen (defineProp 20 emptyState "a" (.vNum 0) (fun v => v != Val.vNull) defaultDidChange)
    (fun s => defineProp 20 s "b" (.vNum 0) alwaysOk defaultDidChange)

def bulkState : MState := (okState bulkRes).getD emptyState

/-- Fixture: primary a = 7 (defaults). -/
def baseA7Res : Res :=
  defineProp 20 emptyState "a" (.vNum 7) alwaysOk defaultDidChange

def baseA7State : MState := (okState baseA7Res).getD emptyState

/-- The shape of a property record apart from its value: derived flag,
validator, change predicate.  Set operations never change it. -/
def entryShape (e : PropEntry) : Bool × (Val → Bool) × (Val → Val → Bool) :=
  (e.derived, e.validator, e.didChange)

/-- What any run of the interpreter preserves of the state: the listener
registry and, for every name, existence and shape of its property
record. -/
def shapeStep (s s' : MState) : Prop :=
  s'.registry = s.registry ∧
  ∀ k, (getProp s' k).map entryShape = (getProp s k).map entryShape

/-- The log only ever grows. -/
def logExtends (s s' : MState) : Prop :=
  ∃ t, s'.log = s.log ++ t

/-- The state right after one event is recorded and emitted: its name is
added to _firedProps and the changed event is appended to the log, before
the channel's listeners run. -/
def firedStep (s : MState) (name : String) (nv ov : Val) : MState :=
  { s with
      firedProps := addFired s.firedProps name,
      log := s.log ++ [.changed name nv ov] }

/-- What an interpreter action can assign directly, used to state that a
whole cascade stays away from one property name. -/
def actAvoids : Act → String → Prop
  | .aSet target _, name => target ≠ name
  | .aSetBulk entries, name => name ∉ entries.map Prod.fst
  | .aFire _, _ => True
  | .aFireList _, _ => True
  | .aRunHandlers hs _ _ _, name => ∀ h ∈ hs, Handler.writes h ≠ name
  | .aRunHandler h _ _ _, name => Handler.writes h ≠ name

theorem andThen_cases {r : Res} {k : MState → Res} {s' : MState} {o : Option Err}
    (h : andThen r k = some (s', o)) :
    (∃ e, r = some (s', some e) ∧ o = some e) ∨
    (∃ s1, r = some (s1, none) ∧ k s1 = some (s', o)) := by
  match r with
  | none => simp [andThen] at h
  | some (s1, some e) =>
    simp only [andThen] at h
    simp only [Option.some.injEq, Prod.mk.injEq] at h
    exact Or.inl ⟨e, by rw [h.1], by rw [h.2]⟩
  | some (s1, none) =>
    exact Or.inr ⟨s1, rfl, h⟩

theorem andThen_ok_intro {r : Res} {k : MState → Res} {s1 : MState}
    (h1 : r = some (s1, none)) {out : Res} (h2 : k s1 = out) :
    andThen r k = out := by
  subst h1; simpa [andThen] using h2

theorem mem_listenersFor {reg : List (String × Handler)} {c : String} {h : Handler} :
    h ∈ listenersFor reg c → (c, h) ∈ reg := by
  induction reg with
  | nil => intro hm; simp [listenersFor] at hm
  | cons hd tl ih =>
    obtain ⟨c0, h0⟩ := hd
    intro hm
    by_cases hc : c0 = c
    · rw [listenersFor, if_pos hc] at hm
      rcases List.mem_cons.mp hm with hm | hm
      · rw [hm, ← hc]
        exact List.mem_cons_self _ _
      · exact List.mem_cons_of_mem _ (ih hm)
    · rw [listenersFor, if_neg hc] at hm
      exact List.mem_cons_of_mem _ (ih hm)

theorem getProp_setValue_ne {s : MState} {name k : String} (v : Val) (hk : k ≠ name) :
    getProp (setValue s name v) k = getProp s k := by
  show getPropIn (setValueIn s.props name v) k = getPropIn s.props k
  induction s.props with
  | nil => rfl
  | cons hd tl ih =>
    obtain ⟨k0, e0⟩ := hd
    have hkn : ¬ name = k := fun h1 => hk h1.symm
    by_cases h0 : k0 = name
    · simp [setValueIn, getPropIn, h0, hkn]
    · by_cases h1 : k0 = k
      · simp [setValueIn, getPropIn, h0, h1, hk]
      · simp [setValueIn, getPropIn, h0, h1, ih]

theorem getProp_setValue_self {s : MState} {name : String} (v : Val) :
    getProp (setValue s name v) name = (getProp s name).map (fun e => { e with value := v }) := by
  show getPropIn (setValueIn s.props name v) name =
    (getPropIn s.props name).map (fun e => { e with value := v })
  induction s.props with
  | nil => rfl
  | cons hd tl ih =>
    obtain ⟨k0, e0⟩ := hd
    by_cases h0 : k0 = name
    · simp [setValueIn, getPropIn, h0]
    · simp [setValueIn, getPropIn, h0, ih]

theorem getVal_setValue_ne {s : MState} {name k : String} (v : Val) (hk : k ≠ name) :
    getVal (setValue s name v) k = getVal s k := by
  simp [getVal, getProp_setValue_ne v hk]

theorem getVal_setValue_self {s : MState} {name : String} {entry : PropEntry} (v : Val)
    (he : getProp s name = some entry) :
    getVal (setValue s name v) name = v := by
  simp [getVal, getProp_setValue_self v, he]

theorem shapeStep_refl (s : MState) : shapeStep s s := ⟨rfl, fun _ => rfl⟩

theorem shapeStep_trans {s1 s2 s3 : MState} (h1 : shapeStep s1 s2) (h2 : shapeStep s2 s3) :
    shapeStep s1 s3 :=
  ⟨h2.1.trans h1.1, fun k => (h2.2 k).trans (h1.2 k)⟩

theorem shapeStep_setValue (s : MState) (name : String) (v : Val) :
    shapeStep s (setValue s name v) := by
  refine ⟨rfl, fun k => ?_⟩
  by_cases hk : k = name
  · subst hk
    rw [getProp_setValue_self v]
    cases getProp s k <;> simp [entryShape]
  · rw [getProp_setValue_ne v hk]

theorem logExtends_refl (s : MState) : logExtends s s := ⟨[], by simp⟩

theorem logExtends_trans {s1 s2 s3 : MState} (h1 : logExtends s1 s2) (h2 : logExtends s2 s3) :
    logExtends s1 s3 := by
  obtain ⟨t1, ht1⟩ := h1
  obtain ⟨t2, ht2⟩ := h2
  exact ⟨t1 ++ t2, by rw [ht2, ht1, List.append_assoc]⟩

theorem run_set_cases {f : Nat} {pv : PV} {s s' : MState} {name : String} {v : Val}
    {o : Option Err} (h : run (f + 1) pv (.aSet name v) s = some (s', o)) :
    (getProp s name = none ∧ s' = s ∧ o = some (.noSuchProperty name)) ∨
    (∃ entry e, getProp s name = some entry ∧ pv s name = some e ∧ s' = s ∧ o = some e) ∨
    (∃ entry, getProp s name = some entry ∧ pv s name = none ∧ entry.validator v = false ∧
      s' = s ∧ o = some (.validationFailed name)) ∨
    (∃ entry, getProp s name = some entry ∧ pv s name = none ∧ entry.validator v = true ∧
      entry.didChange v entry.value = false ∧ s' = setValue s name v ∧ o = none) ∨
    (∃ entry, getProp s name = some entry ∧ pv s name = none ∧ entry.validator v = true ∧
      entry.didChange v entry.value = true ∧
      run f noopPV (.aFire [(name, v, entry.value)]) (setValue s name v) = some (s', o)) := by
  simp only [run] at h
  split at h
  · rename_i hg
    simp only [Option.some.injEq, Prod.mk.injEq] at h
    exact Or.inl ⟨hg, h.1.symm, h.2.symm⟩
  · rename_i entry hg
    split at h
    · rename_i e hpv
      simp only [Option.some.injEq, Prod.mk.injEq] at h
      exact Or.inr (Or.inl ⟨entry, e, hg, hpv, h.1.symm, h.2.symm⟩)
    · rename_i hpv
      split at h
      · rename_i hval
        split at h
        · rename_i hdc
          exact Or.inr (Or.inr (Or.inr (Or.inr ⟨entry, hg, hpv, hval, hdc, h⟩)))
        · rename_i hdc
          simp only [Option.some.injEq, Prod.mk.injEq] at h
          exact Or.inr (Or.inr (Or.inr (Or.inl
            ⟨entry, hg, hpv, hval, Bool.not_eq_true _ |>.mp hdc, h.1.symm, h.2.symm⟩)))
      · rename_i hval
        simp only [Option.some.injEq, Prod.mk.injEq] at h
        exact Or.inr (Or.inr (Or.inl
          ⟨entry, hg, hpv, Bool.not_eq_true _ |>.mp hval, h.1.symm, h.2.symm⟩))

theorem run_bulk_cases {f : Nat} {pv : PV} {s s' : MState} {entries : List (String × Val)}
    {o : Option Err} (h : run (f + 1) pv (.aSetBulk entries) s = some (s', o)) :
    (∃ m, firstMissing s (entries.map Prod.fst) = some m ∧ s' = s ∧
      o = some (.noSuchProperty m)) ∨
    (firstMissing s (entries.map Prod.fst) = none ∧
      ∃ e, firstPvErr pv s (entries.map Prod.fst) = some e ∧ s' = s ∧ o = some e) ∨
    (firstMissing s (entries.map Prod.fst) = none ∧
      firstPvErr pv s (entries.map Prod.fst) = none ∧
      ∃ bad, firstInvalid s entries = some bad ∧ s' = s ∧
        o = some (.validationFailed bad)) ∨
    (firstMissing s (entries.map Prod.fst) = none ∧
      firstPvErr pv s (entries.map Prod.fst) = none ∧ firstInvalid s entries = none ∧
      run f noopPV
        (.aFire (changeEventsOf (assignAll s entries).1 entries (assignAll s entries).2))
        (assignAll s entries).1 = some (s', o)) := by
  simp only [run] at h
  split at h
  · rename_i m hm
    simp only [Option.some.injEq, Prod.mk.injEq] at h
    exact Or.inl ⟨m, hm, h.1.symm, h.2.symm⟩
  · rename_i hm
    split at h
    · rename_i e hpv
      simp only [Option.some.injEq, Prod.mk.injEq] at h
      exact Or.inr (Or.inl ⟨hm, e, hpv, h.1.symm, h.2.symm⟩)
    · rename_i hpv
      split at h
      · rename_i bad hbad
        simp only [Option.some.injEq, Prod.mk.injEq] at h
        exact Or.inr (Or.inr (Or.inl ⟨hm, hpv, bad, hbad, h.1.symm, h.2.symm⟩))
      · rename_i hok
        exact Or.inr (Or.inr (Or.inr ⟨hm, hpv, hok, h⟩))

theorem run_fire_cases {f : Nat} {pv : PV} {s s' : MState} {evs : List ChangeEv}
    {o : Option Err} (h : run (f + 1) pv (.aFire evs) s = some (s', o)) :
    (∃ e, run f noopPV (.aFireList evs) s = some (s', some e) ∧ o = some e) ∨
    (∃ s1, run f noopPV (.aFireList evs) s = some (s1, none) ∧ o = none ∧
      ((s.firedProps = [] ∧
        s' = { s1 with log := s1.log ++ [.chainCompleted s1.firedProps],
                       firedProps := [] }) ∨
       (s.firedProps ≠ [] ∧ s' = s1))) := by
  simp only [run] at h
  rcases andThen_cases h with ⟨e, hr, ho⟩ | ⟨s1, hr, hk⟩
  · exact Or.inl ⟨e, hr, ho⟩
  · refine Or.inr ⟨s1, hr, ?_⟩
    by_cases hfp : s.firedProps = []
    · rw [if_pos (by simp [hfp])] at hk
      simp only [Option.some.injEq, Prod.mk.injEq] at hk
      exact ⟨hk.2.symm, Or.inl ⟨hfp, hk.1.symm⟩⟩
    · rw [if_neg (by simpa [List.isEmpty_iff] using hfp)] at hk
      simp only [Option.some.injEq, Prod.mk.injEq] at hk
      exact ⟨hk.2.symm, Or.inr ⟨hfp, hk.1.symm⟩⟩

theorem run_fireList_nil {f : Nat} {pv : PV} {s : MState} :
    run (f + 1) pv (.aFireList []) s = some (s, none) := rfl

theorem run_fireList_cons_cases {f : Nat} {pv : PV} {s s' : MState} {name : String}
    {nv ov : Val} {rest : List ChangeEv} {o : Option Err}
    (h : run (f + 1) pv (.aFireList ((name, nv, ov) :: rest)) s = some (s', o)) :
    (∃ e, run f noopPV (.aRunHandlers (listenersFor s.registry name) name nv ov)
        (firedStep s name nv ov) = some (s', some e) ∧ o = some e) ∨
    (∃ s2, run f noopPV (.aRunHandlers (listenersFor s.registry name) name nv ov)
        (firedStep s name nv ov) = some (s2, none) ∧
      run f noopPV (.aFireList rest) s2 = some (s', o)) := by
  simp only [run] at h
  rcases andThen_cases h with ⟨e, hr, ho⟩ | ⟨s2, hr, hk⟩
  · exact Or.inl ⟨e, hr, ho⟩
  · exact Or.inr ⟨s2, hr, hk⟩

theorem run_handlers_nil {f : Nat} {pv : PV} {s : MState} {name : String} {nv ov : Val} :
    run (f + 1) pv (.aRunHandlers [] name nv ov) s = some (s, none) := rfl

theorem run_handlers_cons_cases {f : Nat} {pv : PV} {s s' : MState} {h0 : Handler}
    {rest : List Handler} {name : String} {nv ov : Val} {o : Option Err}
    (h : run (f + 1) pv (.aRunHandlers (h0 :: rest) name nv ov) s = some (s', o)) :
    (∃ e, run f noopPV (.aRunHandler h0 name nv ov) s = some (s', some e) ∧ o = some e) ∨
    (∃ s1, run f noopPV (.aRunHandler h0 name nv ov) s = some (s1, none) ∧
      run f noopPV (.aRunHandlers rest name nv ov) s1 = some (s', o)) := by
  simp only [run] at h
  rcases andThen_cases h with ⟨e, hr, ho⟩ | ⟨s1, hr, hk⟩
  · exact Or.inl ⟨e, hr, ho⟩
  · exact Or.inr ⟨s1, hr, hk⟩

theorem run_handler_derived {f : Nat} {pv : PV} {s : MState} {target : String}
    {deps : List String} {compute : List Val → Val} {name : String} {nv ov : Val} :
    run (f + 1) pv (.aRunHandler (.hDerived target deps compute) name nv ov) s =
      run f noopPV (.aSet target (compute (deps.map (getVal s)))) s := rfl

theorem run_handler_viewCalc {f : Nat} {pv : PV} {s : MState} {viewName viewOf : String}
    {calcView : Val → Val} {name : String} {nv ov : Val} :
    run (f + 1) pv (.aRunHandler (.hViewCalc viewName viewOf calcView) name nv ov) s =
      if viewName ∈ s.triggered then some (s, none)
      else run f noopPV (.aSet viewName (calcView (getVal s viewOf))) s := rfl

theorem run_handler_viewReduce_cases {f : Nat} {pv : PV} {s s' : MState}
    {viewName viewOf : String} {reduceBase : (String → Val) → Val → Val → Val}
    {name : String} {nv ov : Val} {o : Option Err}
    (h : run (f + 1) pv (.aRunHandler (.hViewReduce viewName viewOf reduceBase) name nv ov) s
      = some (s', o)) :
    (∃ e, run f noopPV (.aSet viewOf (reduceBase (getVal s) nv (getVal s viewOf)))
        { s with triggered := viewName :: s.triggered } = some (s', some e) ∧ o = some e) ∨
    (∃ s2, run f noopPV (.aSet viewOf (reduceBase (getVal s) nv (getVal s viewOf)))
        { s with triggered := viewName :: s.triggered } = some (s2, none) ∧
      s' = { s2 with triggered := clearFlag s2.triggered viewName } ∧ o = none) := by
  simp only [run] at h
  rcases andThen_cases h with ⟨e, hr, ho⟩ | ⟨s2, hr, hk⟩
  · exact Or.inl ⟨e, hr, ho⟩
  · simp only [Option.some.injEq, Prod.mk.injEq] at hk
    exact Or.inr ⟨s2, hr, hk.1.symm, hk.2.symm⟩

theorem assignAll_pres : ∀ (entries : List (String × Val)) (s : MState),
    shapeStep s (assignAll s entries).1 ∧
    (assignAll s entries).1.log = s.log ∧
    (assignAll s entries).1.registry = s.registry ∧
    (assignAll s entries).1.firedProps = s.firedProps ∧
    (assignAll s entries).1.triggered = s.triggered := by
  intro entries
  induction entries with
  | nil => intro s; exact ⟨shapeStep_refl s, rfl, rfl, rfl, rfl⟩
  | cons hd tl ih =>
    obtain ⟨k, v⟩ := hd
    intro s
    obtain ⟨ih1, ih2, ih3, ih4, ih5⟩ := ih (setValue s k v)
    refine ⟨shapeStep_trans (shapeStep_setValue s k v) ?_, ?_, ?_, ?_, ?_⟩
    · simpa [assignAll] using ih1
    · simpa [assignAll] using ih2
    · simpa [assignAll] using ih3
    · simpa [assignAll] using ih4
    · simpa [assignAll] using ih5

theorem run_pres : ∀ (fuel : Nat) (pv : PV) (act : Act) (s s' : MState) (o : Option Err),
    run fuel pv act s = some (s', o) → shapeStep s s' ∧ logExtends s s' := by
  intro fuel
  induction fuel with
  | zero => intro pv act s s' o h; cases h
  | succ f ih =>
    intro pv act s s' o h
    match act with
    | .aSet name v =>
      rcases run_set_cases h with
        ⟨_, hs, _⟩ | ⟨_, _, _, _, hs, _⟩ | ⟨_, _, _, _, hs, _⟩ |
        ⟨entry, _, _, _, _, hs, _⟩ | ⟨entry, _, _, _, _, hrun⟩
      · subst hs; exact ⟨shapeStep_refl _, logExtends_refl _⟩
      · subst hs; exact ⟨shapeStep_refl _, logExtends_refl _⟩
      · subst hs; exact ⟨shapeStep_refl _, logExtends_refl _⟩
      · subst hs; exact ⟨shapeStep_setValue _ _ _, ⟨[], by simp [setValue]⟩⟩
      · obtain ⟨hsh, hlg⟩ := ih _ _ _ _ _ hrun
        exact ⟨shapeStep_trans (shapeStep_setValue s name v) hsh,
          logExtends_trans ⟨[], by simp [setValue]⟩ hlg⟩
    | .aSetBulk entries =>
      rcases run_bulk_cases h with
        ⟨_, _, hs, _⟩ | ⟨_, _, _, hs, _⟩ | ⟨_, _, _, _, hs, _⟩ | ⟨_, _, _, hrun⟩
      · subst hs; exact ⟨shapeStep_refl _, logExtends_refl _⟩
      · subst hs; exact ⟨shapeStep_refl _, logExtends_refl _⟩
      · subst hs; exact ⟨shapeStep_refl _, logExtends_refl _⟩
      · obtain ⟨hsh, hlg⟩ := ih _ _ _ _ _ hrun
        obtain ⟨ha1, ha2, _, _, _⟩ := assignAll_pres entries s
        exact ⟨shapeStep_trans ha1 hsh, logExtends_trans ⟨[], by simp [ha2]⟩ hlg⟩
    | .aFire evs =>
      rcases run_fire_cases h with ⟨e, hrun, _⟩ | ⟨s1, hrun, _, hcase⟩
      · exact ih _ _ _ _ _ hrun
      · obtain ⟨hsh, hlg⟩ := ih _ _ _ _ _ hrun
        rcases hcase with ⟨_, hs⟩ | ⟨_, hs⟩
        · subst hs
          exact ⟨⟨hsh.1, hsh.2⟩, logExtends_trans hlg ⟨[.chainCompleted s1.firedProps], rfl⟩⟩
        · exact hs ▸ ⟨hsh, hlg⟩
    | .aFireList evs =>
      match evs with
      | [] =>
        rw [run_fireList_nil] at h
        cases h
        exact ⟨shapeStep_refl s, logExtends_refl s⟩
      | (name, nv, ov) :: rest =>
        have hstep : shapeStep s (firedStep s name nv ov) ∧ logExtends s (firedStep s name nv ov) :=
          ⟨⟨rfl, fun _ => rfl⟩, ⟨[.changed name nv ov], rfl⟩⟩
        rcases run_fireList_cons_cases h with ⟨e, hrun, _⟩ | ⟨s2, hrun, hrest⟩
        · obtain ⟨hsh, hlg⟩ := ih _ _ _ _ _ hrun
          exact ⟨shapeStep_trans hstep.1 hsh, logExtends_trans hstep.2 hlg⟩
        · obtain ⟨hsh1, hlg1⟩ := ih _ _ _ _ _ hrun
          obtain ⟨hsh2, hlg2⟩ := ih _ _ _ _ _ hrest
          exact ⟨shapeStep_trans hstep.1 (shapeStep_trans hsh1 hsh2),
            logExtends_trans hstep.2 (logExtends_trans hlg1 hlg2)⟩
    | .aRunHandlers hs0 name nv ov =>
      match hs0 with
      | [] =>
        rw [run_handlers_nil] at h
        cases h
        exact ⟨shapeStep_refl s, logExtends_refl s⟩
      | h0 :: rest =>
        rcases run_handlers_cons_cases h with ⟨e, hrun, _⟩ | ⟨s1, hrun, hrest⟩
        · exact ih _ _ _ _ _ hrun
        · obtain ⟨hsh1, hlg1⟩ := ih _ _ _ _ _ hrun
          obtain ⟨hsh2, hlg2⟩ := ih _ _ _ _ _ hrest
          exact ⟨shapeStep_trans hsh1 hsh2, logExtends_trans hlg1 hlg2⟩
    | .aRunHandler h0 name nv ov =>
      match h0 with
      | .hDerived target deps compute =>
        rw [run_handler_derived] at h
        exact ih _ _ _ _ _ h
      | .hViewCalc viewName viewOf calcView =>
        rw [run_handler_viewCalc] at h
        by_cases hmem : viewName ∈ s.triggered
        · rw [if_pos hmem] at h
          cases h
          exact ⟨shapeStep_refl s, logExtends_refl s⟩
        · rw [if_neg hmem] at h
          exact ih _ _ _ _ _ h
      | .hViewReduce viewName viewOf reduceBase =>
        rcases run_handler_viewReduce_cases h with ⟨e, hrun, _⟩ | ⟨s2, hrun, hs, _⟩
        · obtain ⟨hsh, hlg⟩ := ih _ _ _ _ _ hrun
          exact ⟨⟨hsh.1, hsh.2⟩, hlg⟩
        · obtain ⟨hsh, hlg⟩ := ih _ _ _ _ _ hrun
          exact hs ▸ ⟨⟨hsh.1, hsh.2⟩, hlg⟩

theorem firstMissing_none_iff {s : MState} : ∀ {l : List String},
    firstMissing s l = none ↔ ∀ k ∈ l, ∃ e, getProp s k = some e := by
  intro l
  induction l with
  | nil => simp [firstMissing]
  | cons a t ih =>
    simp only [firstMissing, List.mem_cons]
    cases hg : getProp s a with
    | none =>
      constructor
      · intro h; cases h
      · intro h
        obtain ⟨e, he⟩ := h a (Or.inl rfl)
        rw [hg] at he; cases he
    | some e =>
      constructor
      · intro h k hk
        rcases hk with rfl | hk
        · exact ⟨e, hg⟩
        · exact ih.mp h k hk
      · intro h
        exact ih.mpr (fun k hk => h k (Or.inr hk))

theorem firstMissing_some_mem {s : MState} : ∀ {l : List String} {m : String},
    firstMissing s l = some m → m ∈ l ∧ getProp s m = none := by
  intro l
  induction l with
  | nil => intro m h; cases h
  | cons a t ih =>
    intro m h
    simp only [firstMissing] at h
    cases hg : getProp s a with
    | none =>
      rw [hg] at h
      cases h
      exact ⟨List.mem_cons_self _ _, hg⟩
    | some e =>
      rw [hg] at h
      obtain ⟨hm, hg'⟩ := ih h
      exact ⟨List.mem_cons_of_mem _ hm, hg'⟩

theorem firstMissing_some_of_ex {s : MState} {l : List String}
    (h : ∃ k ∈ l, getProp s k = none) : ∃ m, firstMissing s l = some m := by
  cases hfm : firstMissing s l with
  | some m => exact ⟨m, rfl⟩
  | none =>
    obtain ⟨k, hk, hnone⟩ := h
    obtain ⟨e, he⟩ := firstMissing_none_iff.mp hfm k hk
    rw [hnone] at he
    cases he

theorem firstPvErr_none_of_all {pv : PV} {s : MState} : ∀ {l : List String},
    (∀ k ∈ l, pv s k = none) → firstPvErr pv s l = none := by
  intro l
  induction l with
  | nil => intro _; rfl
  | cons a t ih =>
    intro h
    simp only [firstPvErr]
    rw [h a (List.mem_cons_self _ _)]
    exact ih (fun k hk => h k (List.mem_cons_of_mem _ hk))

theorem firstPvErr_noop (s : MState) : ∀ (l : List String), firstPvErr noopPV s l = none :=
  fun l => firstPvErr_none_of_all (fun _ _ => rfl)

theorem firstInvalid_some_of_ex {s : MState} : ∀ {l : List (String × Val)},
    (∃ kv ∈ l, ∃ e, getProp s kv.1 = some e ∧ e.validator kv.2 = false) →
    ∃ bad, firstInvalid s l = some bad ∧ bad ∈ l.map Prod.fst := by
  intro l
  induction l with
  | nil => intro h; obtain ⟨kv, hm, _⟩ := h; cases hm
  | cons hd t ih =>
    obtain ⟨k, v⟩ := hd
    intro h
    simp only [firstInvalid]
    cases hg : getProp s k with
    | none =>
      obtain ⟨kv, hm, e, he, hv⟩ := h
      rcases List.mem_cons.mp hm with rfl | hm
      · rw [hg] at he; cases he
      · obtain ⟨bad, hb, hbm⟩ := ih ⟨kv, hm, e, he, hv⟩
        exact ⟨bad, hb, List.mem_cons_of_mem _ hbm⟩
    | some e0 =>
      cases hval : e0.validator v with
      | false => exact ⟨k, by simp [hval], List.mem_cons_self _ _⟩
      | true =>
        obtain ⟨kv, hm, e, he, hv⟩ := h
        rcases List.mem_cons.mp hm with rfl | hm
        · rw [hg] at he
          cases he
          rw [hval] at hv
          cases hv
        · obtain ⟨bad, hb, hbm⟩ := ih ⟨kv, hm, e, he, hv⟩
          exact ⟨bad, by simp [hval, hb], List.mem_cons_of_mem _ hbm⟩

theorem run_noop_no_denial : ∀ (fuel : Nat) (act : Act) (s s' : MState) (e : Err),
    run fuel noopPV act s = some (s', some e) → ∀ x, e ≠ Err.accessDenied x := by
  intro fuel
  induction fuel with
  | zero => intro act s s' e h; cases h
  | succ f ih =>
    intro act s s' e h
    match act with
    | .aSet name v =>
      rcases run_set_cases h with
        ⟨_, _, ho⟩ | ⟨_, e2, _, hpv, _, _⟩ | ⟨_, _, _, _, _, ho⟩ |
        ⟨_, _, _, _, _, _, ho⟩ | ⟨_, _, _, _, _, hrun⟩
      · intro x hx; rw [hx] at ho; cases ho
      · cases hpv
      · intro x hx; rw [hx] at ho; cases ho
      · cases ho
      · exact ih _ _ _ _ hrun
    | .aSetBulk entries =>
      rcases run_bulk_cases h with
        ⟨m, _, _, ho⟩ | ⟨_, e2, hpv, _, _⟩ | ⟨_, _, bad, _, _, ho⟩ | ⟨_, _, _, hrun⟩
      · intro x hx; rw [hx] at ho; cases ho
      · rw [firstPvErr_noop] at hpv; cases hpv
      · intro x hx; rw [hx] at ho; cases ho
      · exact ih _ _ _ _ hrun
    | .aFire evs =>
      rcases run_fire_cases h with ⟨e2, hrun, ho⟩ | ⟨s1, _, ho, _⟩
      · cases ho; exact ih _ _ _ _ hrun
      · cases ho
    | .aFireList evs =>
      match evs with
      | [] =>
        rw [run_fireList_nil] at h
        cases h
      | (name, nv, ov) :: rest =>
        rcases run_fireList_cons_cases h with ⟨e2, hrun, ho⟩ | ⟨s2, _, hrun⟩
        · cases ho; exact ih _ _ _ _ hrun
        · exact ih _ _ _ _ hrun
    | .aRunHandlers hs0 name nv ov =>
      match hs0 with
      | [] =>
        rw [run_handlers_nil] at h
        cases h
      | h0 :: rest =>
        rcases run_handlers_cons_cases h with ⟨e2, hrun, ho⟩ | ⟨s1, _, hrun⟩
        · cases ho; exact ih _ _ _ _ hrun
        · exact ih _ _ _ _ hrun
    | .aRunHandler h0 name nv ov =>
      match h0 with
      | .hDerived target deps compute =>
        rw [run_handler_derived] at h
        exact ih _ _ _ _ h
      | .hViewCalc viewName viewOf calcView =>
        rw [run_handler_viewCalc] at h
        by_cases hmem : viewName ∈ s.triggered
        · rw [if_pos hmem] at h; cases h
        · rw [if_neg hmem] at h
          exact ih _ _ _ _ h
      | .hViewReduce viewName viewOf reduceBase =>
        rcases run_handler_viewReduce_cases h with ⟨e2, hrun, ho⟩ | ⟨s2, _, _, ho⟩
        · cases ho; exact ih _ _ _ _ hrun
        · cases ho

theorem getVal_assignAll_not_mem : ∀ (entries : List (String × Val)) (s : MState)
    (name : String), name ∉ entries.map Prod.fst →
    getVal (assignAll s entries).1 name = getVal s name := by
  intro entries
  induction entries with
  | nil => intro s name _; rfl
  | cons hd t ih =>
    obtain ⟨k, v⟩ := hd
    intro s name hmem
    simp only [List.map_cons, List.mem_cons] at hmem
    push_neg at hmem
    have h1 : getVal (assignAll (setValue s k v) t).1 name = getVal (setValue s k v) name :=
      ih (setValue s k v) name hmem.2
    calc getVal (assignAll s ((k, v) :: t)).1 name
        = getVal (assignAll (setValue s k v) t).1 name := by simp [assignAll]
      _ = getVal (setValue s k v) name := h1
      _ = getVal s name := getVal_setValue_ne v hmem.1

theorem run_avoid_preserves : ∀ (fuel : Nat) (pv : PV) (act : Act) (s s' : MState)
    (o : Option Err) (name : String),
    run fuel pv act s = some (s', o) →
    (∀ c h, (c, h) ∈ s.registry → Handler.writes h ≠ name) →
    actAvoids act name →
    getVal s' name = getVal s name := by
  intro fuel
  induction fuel with
  | zero => intro pv act s s' o name h _ _; cases h
  | succ f ih =>
    intro pv act s s' o name h hreg hav
    match act with
    | .aSet target v =>
      have hav' : target ≠ name := hav
      rcases run_set_cases h with
        ⟨_, hs, _⟩ | ⟨_, _, _, _, hs, _⟩ | ⟨_, _, _, _, hs, _⟩ |
        ⟨entry, _, _, _, _, hs, _⟩ | ⟨entry, _, _, _, _, hrun⟩
      · rw [hs]
      · rw [hs]
      · rw [hs]
      · rw [hs]; exact getVal_setValue_ne v (Ne.symm hav')
      · have h1 := ih _ _ (setValue s target v) _ _ _ hrun hreg trivial
        rw [h1]
        exact getVal_setValue_ne v (Ne.symm hav')
    | .aSetBulk entries =>
      have hav' : name ∉ entries.map Prod.fst := hav
      rcases run_bulk_cases h with
        ⟨_, _, hs, _⟩ | ⟨_, _, _, hs, _⟩ | ⟨_, _, _, _, hs, _⟩ | ⟨_, _, _, hrun⟩
      · rw [hs]
      · rw [hs]
      · rw [hs]
      · have hreg1 : ∀ c hh, (c, hh) ∈ (assignAll s entries).1.registry →
            Handler.writes hh ≠ name := by
          intro c hh hm
          exact hreg c hh ((assignAll_pres entries s).2.2.1 ▸ hm)
        have h1 := ih _ _ (assignAll s entries).1 _ _ _ hrun hreg1 trivial
        rw [h1]
        exact getVal_assignAll_not_mem entries s name hav'
    | .aFire evs =>
      rcases run_fire_cases h with ⟨e, hrun, _⟩ | ⟨s1, hrun, _, hcase⟩
      · exact ih _ _ s _ _ _ hrun hreg trivial
      · have h1 := ih _ _ s _ _ _ hrun hreg trivial
        rcases hcase with ⟨_, hs⟩ | ⟨_, hs⟩
        · rw [hs]; exact h1
        · rw [hs]; exact h1
    | .aFireList evs =>
      match evs with
      | [] =>
        rw [run_fireList_nil] at h
        cases h
        rfl
      | (evn, nv, ov) :: rest =>
        have hav1 : actAvoids (.aRunHandlers (listenersFor s.registry evn) evn nv ov) name := by
          intro hh hm
          exact hreg evn hh (mem_listenersFor hm)
        rcases run_fireList_cons_cases h with ⟨e, hrun, _⟩ | ⟨s2, hrun, hrest⟩
        · exact ih _ _ (firedStep s evn nv ov) _ _ _ hrun hreg hav1
        · have h1 := ih _ _ (firedStep s evn nv ov) _ _ _ hrun hreg hav1
          have hreg2 : ∀ c hh, (c, hh) ∈ s2.registry → Handler.writes hh ≠ name := by
            intro c hh hm
            have hr := (run_pres _ _ _ _ _ _ hrun).1.1
            exact hreg c hh (hr ▸ hm)
          have h2 := ih _ _ s2 _ _ _ hrest hreg2 trivial
          rw [h2]
          exact h1
    | .aRunHandlers hs0 evn nv ov =>
      match hs0 with
      | [] =>
        rw [run_handlers_nil] at h
        cases h
        rfl
      | h0 :: rest =>
        rcases run_handlers_cons_cases h with ⟨e, hrun, _⟩ | ⟨s1, hrun, hrest⟩
        · exact ih _ _ s _ _ _ hrun hreg (hav h0 (List.mem_cons_self _ _))
        · have h1 := ih _ _ s _ _ _ hrun hreg (hav h0 (List.mem_cons_self _ _))
          have hreg1 : ∀ c hh, (c, hh) ∈ s1.registry → Handler.writes hh ≠ name := by
            intro c hh hm
            have hr := (run_pres _ _ _ _ _ _ hrun).1.1
            exact hreg c hh (hr ▸ hm)
          have hav1 : actAvoids (.aRunHandlers rest evn nv ov) name :=
            fun hh hm => hav hh (List.mem_cons_of_mem _ hm)
          have h2 := ih _ _ s1 _ _ _ hrest hreg1 hav1
          rw [h2]
          exact h1
    | .aRunHandler h0 evn nv ov =>
      match h0 with
      | .hDerived target deps compute =>
        rw [run_handler_derived] at h
        have hav1 : actAvoids (.aSet target (compute (deps.map (getVal s)))) name := hav
        exact ih _ _ s _ _ _ h hreg hav1
      | .hViewCalc viewName viewOf calcView =>
        rw [run_handler_viewCalc] at h
        by_cases hmem : viewName ∈ s.triggered
        · rw [if_pos hmem] at h
          cases h
          rfl
        · rw [if_neg hmem] at h
          have hav1 : actAvoids (.aSet viewName (calcView (getVal s viewOf))) name := hav
          exact ih _ _ s _ _ _ h hreg hav1
      | .hViewReduce viewName viewOf reduceBase =>
        have hav1 : actAvoids
            (.aSet viewOf (reduceBase (getVal s) (nv) (getVal s viewOf))) name := hav
        rcases run_handler_viewReduce_cases h with ⟨e, hrun, _⟩ | ⟨s2, hrun, hs, _⟩
        · exact ih _ _ { s with triggered := viewName :: s.triggered } _ _ _ hrun hreg hav1
        · have h1 := ih _ _ { s with triggered := viewName :: s.triggered } _ _ _ hrun hreg hav1
          rw [hs]
          exact h1

theorem getPropIn_append (l1 l2 : List (String × PropEntry)) (k : String) :
    getPropIn (l1 ++ l2) k =
      match getPropIn l1 k with
      | some e => some e
      | none => getPropIn l2 k := by
  induction l1 with
  | nil => rfl
  | cons hd t ih =>
    obtain ⟨k0, e0⟩ := hd
    by_cases h0 : k0 = k
    · simp [getPropIn, h0]
    · simp [getPropIn, h0, ih]

theorem listenersFor_append (r1 r2 : List (String × Handler)) (c : String) :
    listenersFor (r1 ++ r2) c = listenersFor r1 c ++ listenersFor r2 c := by
  induction r1 with
  | nil => rfl
  | cons hd t ih =>
    obtain ⟨c0, h0⟩ := hd
    by_cases hc : c0 = c
    · simp [listenersFor, hc, ih]
    · simp [listenersFor, hc, ih]

theorem listenersFor_map_eq_nil (deps : List String) (h : Handler) (name : String)
    (hmem : name ∉ deps) :
    listenersFor (deps.map (fun p => (p, h))) name = [] := by
  induction deps with
  | nil => rfl
  | cons a t ih =>
    simp only [List.mem_cons] at hmem
    push_neg at hmem
    have hna : ¬ a = name := fun h1 => hmem.1 h1.symm
    simp only [List.map_cons, listenersFor, if_neg hna]
    exact ih hmem.2

theorem run_fire_single_nol {f : Nat} {s : MState} {name : String} {nv ov : Val}
    (hnol : listenersFor s.registry name = []) :
    ∃ s', run (f + 1 + 1 + 1) noopPV (.aFire [(name, nv, ov)]) s = some (s', none) ∧
      s'.props = s.props ∧ s'.triggered = s.triggered := by
  have h0 : run (f + 1) noopPV
      (.aRunHandlers (listenersFor s.registry name) name nv ov) (firedStep s name nv ov) =
      some (firedStep s name nv ov, none) := by
    rw [hnol]
    exact run_handlers_nil
  have h1 : run (f + 1 + 1) noopPV (.aFireList [(name, nv, ov)]) s =
      some (firedStep s name nv ov, none) := by
    show andThen
      (run (f + 1) noopPV
        (.aRunHandlers (listenersFor s.registry name) name nv ov) (firedStep s name nv ov))
      (fun s2 => run (f + 1) noopPV (.aFireList []) s2) = _
    exact andThen_ok_intro h0 run_fireList_nil
  by_cases hfp : s.firedProps = []
  · refine ⟨{ firedStep s name nv ov with
        log := (firedStep s name nv ov).log ++
          [.chainCompleted (firedStep s name nv ov).firedProps],
        firedProps := [] }, ?_, rfl, rfl⟩
    show andThen (run (f + 1 + 1) noopPV (.aFireList [(name, nv, ov)]) s)
      (fun s1 =>
        if s.firedProps.isEmpty = true then
          some ({ s1 with log := s1.log ++ [.chainCompleted s1.firedProps],
                          firedProps := [] }, none)
        else some (s1, none)) = _
    refine andThen_ok_intro h1 ?_
    rw [if_pos (by simp [hfp])]
  · refine ⟨firedStep s name nv ov, ?_, rfl, rfl⟩
    show andThen (run (f + 1 + 1) noopPV (.aFireList [(name, nv, ov)]) s)
      (fun s1 =>
        if s.firedProps.isEmpty = true then
          some ({ s1 with log := s1.log ++ [.chainCompleted s1.firedProps],
                          firedProps := [] }, none)
        else some (s1, none)) = _
    refine andThen_ok_intro h1 ?_
    rw [if_neg (by simpa [List.isEmpty_iff] using hfp)]

/-- Claim C10: for every facade, get runs the facade read validator before
the store existence check, so a name that is both undefined and denied
raises the access error, while set checks existence before write
authorization and raises NoSuchPropertyError for the same name. -/
theorem C10_get_before_existence (f : Nat) (pv : PV) (s : MState) (name : String)
    (v : Val) (e : Err) (hpv : pv s name = some e) (hmiss : getProp s name = none) :
    doGet pv s name = Except.error e ∧
    run (f + 1) pv (.aSet name v) s = some (s, some (.noSuchProperty name)) := by
  constructor
  · simp [doGet, hpv]
  · simp [run, hmiss]

theorem C10_witness :
    doGet publicReadPV emptyState "_x" = Except.error (.accessDenied "_x") ∧
    run 1 publicReadPV (.aSet "_x" .vNull) emptyState
      = some (emptyState, some (.noSuchProperty "_x")) :=
  C10_get_before_existence 0 publicReadPV emptyState "_x" .vNull
    (.accessDenied "_x") (by decide) rfl

/-- Claim C9: a write to a derived property through the standard public
facade fails with an access denial, the same write through the standard
owner facade fails with an access denial, and the store's own internal
writes (the always-granting property validator used by listeners and by
the store's plain set) are never denied. -/
theorem C9_derived_write_denied (f : Nat) (s : MState) (name : String) (v : Val)
    (entry : PropEntry) (hg : getProp s name = some entry) (hd : entry.derived = true) :
    run (f + 1) publicWritePV (.aSet name v) s = some (s, some (.accessDenied name)) ∧
    run (f + 1) standardWritePV (.aSet name v) s = some (s, some (.accessDenied name)) ∧
    ∀ fuel s' e, run fuel noopPV (.aSet name v) s = some (s', some e) →
      ∀ x, e ≠ Err.accessDenied x := by
  have hsw : standardWritePV s name = some (.accessDenied name) := by
    simp [standardWritePV, hg, hd]
  have hpw : publicWritePV s name = some (.accessDenied name) := by
    by_cases hu : startsWithUnderscore name
    · simp [publicWritePV, publicReadPV, hu]
    · simp [publicWritePV, publicReadPV, hu, hsw]
  refine ⟨?_, ?_, fun fuel s' e h => run_noop_no_denial fuel _ s s' e h⟩
  · simp [run, hg, hpw]
  · simp [run, hg, hsw]

theorem C9_witness :
    run 5 publicWritePV (.aSet "d" (.vNum 9)) derivedOkState
      = some (derivedOkState, some (.accessDenied "d")) ∧
    run 5 standardWritePV (.aSet "d" (.vNum 9)) derivedOkState
      = some (derivedOkState, some (.accessDenied "d")) := by
  have h := C9_derived_write_denied 4 derivedOkState "d" (.vNum 9)
    ⟨.vNum 1, true, alwaysOk, defaultDidChange⟩ rfl rfl
  exact ⟨h.1, h.2.1⟩

/-- Claim C4: a bulk set with an unknown key raises NoSuchPropertyError,
and one with a value some validator rejects raises the validation failure,
in both cases with the state returned exactly as it was: all existence,
authorization and validation checks run before any assignment, so a single
rejection aborts the whole batch with no side effects. -/
theorem C4_bulk_atomic (f : Nat) (pv : PV) (s : MState) (entries : List (String × Val)) :
    ((∃ k, k ∈ entries.map Prod.fst ∧ getProp s k = none) →
      ∃ m, m ∈ entries.map Prod.fst ∧ getProp s m = none ∧
        run (f + 1) pv (.aSetBulk entries) s = some (s, some (.noSuchProperty m))) ∧
    ((∀ k ∈ entries.map Prod.fst, ∃ e, getProp s k = some e) →
      (∀ k ∈ entries.map Prod.fst, pv s k = none) →
      (∃ kv, kv ∈ entries ∧ ∃ e, getProp s kv.1 = some e ∧ e.validator kv.2 = false) →
      ∃ bad, bad ∈ entries.map Prod.fst ∧
        run (f + 1) pv (.aSetBulk entries) s = some (s, some (.validationFailed bad))) := by
  constructor
  · intro hex
    obtain ⟨m, hfm⟩ := firstMissing_some_of_ex hex
    obtain ⟨hm, hnone⟩ := firstMissing_some_mem hfm
    exact ⟨m, hm, hnone, by simp [run, hfm]⟩
  · intro hall hgrant hex
    have hfm : firstMissing s (entries.map Prod.fst) = none := firstMissing_none_iff.mpr hall
    have hpv : firstPvErr pv s (entries.map Prod.fst) = none := firstPvErr_none_of_all hgrant
    obtain ⟨bad, hbad, hbm⟩ := firstInvalid_some_of_ex hex
    exact ⟨bad, hbm, by simp [run, hfm, hpv, hbad]⟩

theorem C4_witness :
    (∃ m, m ∈ [("a", Val.vNum 1), ("x", Val.vNum 2)].map Prod.fst ∧
      getProp bulkState m = none ∧
      run 30 noopPV (.aSetBulk [("a", .vNum 1), ("x", .vNum 2)]) bulkState
        = some (bulkState, some (.noSuchProperty m))) ∧
    (∃ bad, bad ∈ [("a", Val.vNull), ("b", Val.vNum 2)].map Prod.fst ∧
      run 30 noopPV (.aSetBulk [("a", .vNull), ("b", .vNum 2)]) bulkState
        = some (bulkState, some (.validationFailed bad))) := by
  constructor
  · exact (C4_bulk_atomic 29 noopPV bulkState [("a", .vNum 1), ("x", .vNum 2)]).1
      ⟨"x", by decide, rfl⟩
  · refine (C4_bulk_atomic 29 noopPV bulkState [("a", .vNull), ("b", .vNum 2)]).2
      ?_ (fun k _ => rfl) ?_
    · intro k hk
      simp only [List.map_cons, List.map_nil, List.mem_cons, List.not_mem_nil,
        or_false] at hk
      rcases hk with rfl | rfl
      · exact ⟨_, rfl⟩
      · exact ⟨_, rfl⟩
    · exact ⟨("a", .vNull), List.mem_cons_self _ _,
        ⟨.vNum 0, false, fun v => v != Val.vNull, defaultDidChange⟩, rfl, rfl⟩

/-- Claim C7 counterexample: the original claim quantifies over every
primary property, but it fails for the primary base of a view pair.  In
the store with primary b and a view w of b (identity view calculation,
constant reducer 100), b is primary (derived = false) and set b 1
completes successfully, yet an immediate get of b returns 100 — the view
listener's write-back to the base overwrote the value within the same
cascade — not the 1 that was just set. -/
theorem C7_counterexample :
    (getProp viewCexState "b").map PropEntry.derived = some false ∧
    (okState (run 30 noopPV (.aSet "b" (.vNum 1)) viewCexState)).isSome = true ∧
    (okState (run 30 noopPV (.aSet "b" (.vNum 1)) viewCexState)).map
      (fun s => doGet noopPV s "b") = some (Except.ok (.vNum 100)) ∧
    Val.vNum 100 ≠ Val.vNum 1 :=
  ⟨rfl, rfl, rfl, by decide⟩

/-- Claim C7 (amended): a successful set of a primary property that no
registered listener writes back to, immediately followed by get, returns
exactly the value that was set, whatever the change predicate reported:
the assignment is unconditional and independent of whether a change event
fired.  (The write-back restriction is necessary: the base of a view pair
is overwritten by the view listener within the same cascade.) -/
theorem C7_set_then_get (f : Nat) (pv : PV) (s s' : MState) (name : String) (v : Val)
    (entry : PropEntry) (hg : getProp s name = some entry) (hprim : entry.derived = false)
    (hreg : ∀ c h, (c, h) ∈ s.registry → Handler.writes h ≠ name)
    (hrun : run (f + 1) pv (.aSet name v) s = some (s', none)) :
    doGet noopPV s' name = Except.ok v := by
  rcases run_set_cases hrun with
    ⟨_, _, ho⟩ | ⟨_, _, _, _, _, ho⟩ | ⟨_, _, _, _, _, ho⟩ |
    ⟨e0, hg0, _, _, _, hs, _⟩ | ⟨e0, hg0, _, _, _, hrun2⟩
  · cases ho
  · cases ho
  · cases ho
  · subst hs
    simp [doGet, noopPV, getProp_setValue_self, hg0]
  · have hval := run_avoid_preserves _ _ _ (setValue s name v) _ _ name hrun2 hreg trivial
    have h2 : getVal (setValue s name v) name = v := getVal_setValue_self v hg0
    have hshape := (run_pres _ _ _ _ _ _ hrun2).1.2 name
    rw [getProp_setValue_self v, hg0] at hshape
    cases hge : getProp s' name with
    | none => rw [hge] at hshape; simp at hshape
    | some e2 =>
      have hv2 : e2.value = v := by
        rw [h2] at hval
        rw [getVal, hge] at hval
        exact hval
      simp [doGet, noopPV, hge, hv2]

theorem C7_witness :
    doGet noopPV
      ((okState (run 5 noopPV (.aSet "a" (.vNum 5)) noChangeState)).getD emptyState) "a"
      = Except.ok (.vNum 5) := by
  refine C7_set_then_get 4 noopPV noChangeState _ "a" (.vNum 5)
    ⟨.vNum 0, false, alwaysOk, fun _ _ => false⟩ rfl rfl ?_ ?_
  · intro c h hm
    rw [show noChangeState.registry = [] from rfl] at hm
    exact absurd hm (List.not_mem_nil _)
  · rfl

/-- Claim C1 counterexample: in a store with primary b and a view w of b
(identity view calculation, constant reducer 100), the outermost set of
the base b to 1 makes the view-change listener write b back to 100 within
the very same cascade: the final value of b is 100, not the 1 just set,
and the log of the cascade records the second b-changed event emitted by
the write-back.  The claimed suppression of the view-to-base propagation
during base-to-view propagation does not exist in the code (the flag
suppresses the opposite direction). -/
theorem C1_counterexample :
    okVal (run 30 noopPV (.aSet "b" (.vNum 1)) viewCexState) "b" = some (.vNum 100) ∧
    okLog (run 30 noopPV (.aSet "b" (.vNum 1)) viewCexState)
      = some (viewCexState.log ++
          [.changed "b" (.vNum 1) (.vNum 100), .changed "w" (.vNum 1) (.vNum 0),
           .changed "b" (.vNum 100) (.vNum 1), .chainCompleted ["b", "w"]]) ∧
    Val.vNum 100 ≠ Val.vNum 1 := by
  refine ⟨by decide, by decide, by decide⟩

/-- Claim C3 counterexample: an outermost single set whose change
predicate reports no change (here: setting a to its current value under
the default predicate) completes successfully but never invokes the event
helper, so no prop-chain-completed notification is emitted at all for
that outermost call, where the claim demands exactly one. -/
theorem C3_counterexample :
    onePropState.firedProps = [] ∧
    okLog (run 30 noopPV (.aSet "a" (.vNum 0)) onePropState) = some onePropState.log ∧
    countChain onePropState.log = 1 := by
  refine ⟨by decide, by decide, by decide⟩

theorem pair_set_view_eval (f : Nat) (cv : Val → Val)
    (rb : (String → Val) → Val → Val → Val) (dcB dcW : Val → Val → Bool)
    (bval wval v : Val) :
    (dcW v wval = false ∧
      run (f + 1 + 1 + 1 + 1 + 1 + 1 + 1 + 1 + 1 + 1 + 1 + 1) noopPV (.aSet "w" v)
          (pairState cv rb dcB dcW bval wval)
        = some (pairState cv rb dcB dcW bval v, none)) ∨
    (dcW v wval = true ∧ dcB (pairNewBase cv rb dcB dcW bval wval v) bval = false ∧
      run (f + 1 + 1 + 1 + 1 + 1 + 1 + 1 + 1 + 1 + 1 + 1 + 1) noopPV (.aSet "w" v)
          (pairState cv rb dcB dcW bval wval)
        = some ({ pairState cv rb dcB dcW (pairNewBase cv rb dcB dcW bval wval v) v with
            log := [.changed "w" v wval, .chainCompleted ["w"]] }, none)) ∨
    (dcW v wval = true ∧ dcB (pairNewBase cv rb dcB dcW bval wval v) bval = true ∧
      run (f + 1 + 1 + 1 + 1 + 1 + 1 + 1 + 1 + 1 + 1 + 1 + 1) noopPV (.aSet "w" v)
          (pairState cv rb dcB dcW bval wval)
        = some ({ pairState cv rb dcB dcW (pairNewBase cv rb dcB dcW bval wval v) v with
            log := [.changed "w" v wval,
              .changed "b" (pairNewBase cv rb dcB dcW bval wval v) bval,
              .chainCompleted ["w", "b"]] }, none)) := by
  by_cases hW : dcW v wval = true
  · by_cases hB : dcB (pairNewBase cv rb dcB dcW bval wval v) bval = true
    · refine Or.inr (Or.inr ⟨hW, hB, ?_⟩)
      simp only [pairNewBase, pairMid] at hB
      simp [run, pairState, pairMid, pairNewBase, getProp, getPropIn, noopPV, alwaysOk,
        setValue, setValueIn, listenersFor, firedStep, addFired, clearFlag, andThen, hW, hB]
    · rw [Bool.not_eq_true] at hB
      refine Or.inr (Or.inl ⟨hW, hB, ?_⟩)
      simp only [pairNewBase, pairMid] at hB
      simp [run, pairState, pairMid, pairNewBase, getProp, getPropIn, noopPV, alwaysOk,
        setValue, setValueIn, listenersFor, firedStep, addFired, clearFlag, andThen, hW, hB]
  · rw [Bool.not_eq_true] at hW
    refine Or.inl ⟨hW, ?_⟩
    simp [run, pairState, getProp, getPropIn, noopPV, alwaysOk, setValue, setValueIn, hW]

/-- Claim C1 (amended): the re-entrancy suppression works in the
direction opposite to the claimed one.  While the view-to-base write-back
triggered by a view change is executing, the base-to-view recomputation
is suppressed for that same update: after an outermost set of the view,
the view's stored value is exactly the value set (for every calculation
function, so the recomputation listener did not run), the write-back to
the base did execute whenever the view reported a change, and the
triggered flag is down again afterwards. -/
theorem C1_amended (f : Nat) (cv : Val → Val) (rb : (String → Val) → Val → Val → Val)
    (dcB dcW : Val → Val → Bool) (bval wval v : Val) :
    ∃ s', run (f + 1 + 1 + 1 + 1 + 1 + 1 + 1 + 1 + 1 + 1 + 1 + 1) noopPV (.aSet "w" v)
        (pairState cv rb dcB dcW bval wval) = some (s', none) ∧
      getVal s' "w" = v ∧ s'.triggered = [] ∧
      (dcW v wval = true → getVal s' "b" = pairNewBase cv rb dcB dcW bval wval v) ∧
      (dcW v wval = false → getVal s' "b" = bval) := by
  rcases pair_set_view_eval f cv rb dcB dcW bval wval v with
    ⟨hW, hrun⟩ | ⟨hW, hB, hrun⟩ | ⟨hW, hB, hrun⟩
  · refine ⟨_, hrun, ?_, rfl, ?_, ?_⟩
    · simp [pairState, getVal, getProp, getPropIn]
    · intro h; rw [h] at hW; cases hW
    · intro _; simp [pairState, getVal, getProp, getPropIn]
  · refine ⟨_, hrun, ?_, rfl, ?_, ?_⟩
    · simp [pairState, getVal, getProp, getPropIn]
    · intro _; simp [pairState, getVal, getProp, getPropIn]
    · intro h; rw [h] at hW; cases hW
  · refine ⟨_, hrun, ?_, rfl, ?_, ?_⟩
    · simp [pairState, getVal, getProp, getPropIn]
    · intro _; simp [pairState, getVal, getProp, getPropIn]
    · intro h; rw [h] at hW; cases hW

/-- Claim C6: in a view/base pair, a single outermost set of the view
completes within the fixed fuel bound 12 for every calculation function,
reducer and change predicate (the cascade has bounded depth: the
write-back to the base does not re-trigger the view recomputation), and
the whole cascade emits at most one view-changed event and at most one
settle notification: the view is never recomputed a second time. -/
theorem C6_view_bounded (cv : Val → Val) (rb : (String → Val) → Val → Val → Val)
    (dcB dcW : Val → Val → Bool) (bval wval v : Val) :
    ∃ r, run 12 noopPV (.aSet "w" v) (pairState cv rb dcB dcW bval wval) = some r ∧
      countChangedOf r.1.log "w" ≤ 1 ∧ countChain r.1.log ≤ 1 := by
  rcases pair_set_view_eval 0 cv rb dcB dcW bval wval v with
    ⟨_, hrun⟩ | ⟨_, _, hrun⟩ | ⟨_, _, hrun⟩
  · exact ⟨_, hrun, by simp [countChangedOf, pairState], by simp [countChain, pairState]⟩
  · exact ⟨_, hrun, by simp [countChangedOf, pairState], by simp [countChain, pairState]⟩
  · exact ⟨_, hrun, by simp [countChangedOf, pairState], by simp [countChain, pairState]⟩

/-- Claim C8: defineDerivedProp uses a provided initial value verbatim —
the check is presence (not undefined), not truthiness, so false, 0, the
empty string and null all count as provided — and in that case the stored
value ignores compute; only when no initial value is present is the value
computed from the contemporary values of the dependencies in the given
order.  Stated on the state after the definition completes, including the
initial change event. -/
theorem C8_derived_initial (f : Nat) (s : MState) (name : String) (deps : List String)
    (dc : Val → Val → Bool) (compute : List Val → Val) (initialValue : Val)
    (hfresh : getProp s name = none) (hdeps : firstMissing s deps = none)
    (hnol : listenersFor s.registry name = []) :
    ∃ s' e, defineDerivedProp (f + 1 + 1 + 1) s name deps compute initialValue dc
        = some (s', none) ∧
      getProp s' name = some e ∧ e.derived = true ∧
      e.value = (if initialValue = Val.vUndefined
        then compute (deps.map (getVal s)) else initialValue) := by
  have hname_notin : name ∉ deps := by
    intro hmem
    obtain ⟨e, he⟩ := firstMissing_none_iff.mp hdeps name hmem
    rw [hfresh] at he
    cases he
  have happ : ∀ (entry : PropEntry),
      getPropIn (s.props ++ [(name, entry)]) name = some entry := by
    intro entry
    rw [getPropIn_append]
    rw [show getPropIn s.props name = none from hfresh]
    simp [getPropIn]
  have hreg2 : listenersFor (s.registry ++ deps.map
      (fun p => (p, Handler.hDerived name deps compute))) name = [] := by
    rw [listenersFor_append, hnol, listenersFor_map_eq_nil deps _ name hname_notin]
    rfl
  simp only [defineDerivedProp, hfresh, hdeps]
  by_cases hdc : dc (if initialValue = Val.vUndefined
      then compute (deps.map (getVal s)) else initialValue) Val.vUndefined = true
  · rw [if_pos hdc]
    obtain ⟨s'', hrun, hprops, _⟩ :=
      @run_fire_single_nol f
        { s with
          props := s.props ++ [(name,
            (⟨if initialValue = Val.vUndefined then compute (deps.map (getVal s))
               else initialValue, true, alwaysOk, dc⟩ : PropEntry))],
          registry := s.registry ++ deps.map
            (fun p => (p, Handler.hDerived name deps compute)) }
        name
        (if initialValue = Val.vUndefined then compute (deps.map (getVal s))
          else initialValue)
        Val.vUndefined hreg2
    refine ⟨s'', ⟨if initialValue = Val.vUndefined then compute (deps.map (getVal s))
      else initialValue, true, alwaysOk, dc⟩, hrun, ?_, rfl, rfl⟩
    show getPropIn s''.props name = _
    rw [hprops]
    exact happ _
  · rw [if_neg hdc]
    exact ⟨_, ⟨if initialValue = Val.vUndefined then compute (deps.map (getVal s))
      else initialValue, true, alwaysOk, dc⟩, rfl, happ _, rfl, rfl⟩

theorem C8_witness :
    (∃ s' e, defineDerivedProp 3 baseA7State "d" ["a"] plusOne (.vBool false)
        defaultDidChange = some (s', none) ∧
      getProp s' "d" = some e ∧ e.derived = true ∧
      e.value = (if (Val.vBool false) = Val.vUndefined
        then plusOne (["a"].map (getVal baseA7State)) else .vBool false)) ∧
    (∃ s' e, defineDerivedProp 3 baseA7State "d" ["a"] plusOne .vUndefined
        defaultDidChange = some (s', none) ∧
      getProp s' "d" = some e ∧ e.derived = true ∧
      e.value = (if (Val.vUndefined : Val) = Val.vUndefined
        then plusOne (["a"].map (getVal baseA7State)) else .vUndefined)) :=
  ⟨C8_derived_initial 0 baseA7State "d" ["a"] defaultDidChange plusOne (.vBool false)
      rfl rfl rfl,
   C8_derived_initial 0 baseA7State "d" ["a"] defaultDidChange plusOne .vUndefined
      rfl rfl rfl⟩

/-- Claim C5: in a successful bulk set, every value is assigned before any
change event fires, and the direct change events are exactly the entries
whose change predicate reports a change, in the iteration order of the
input mapping.  Conjunct one: the assignment pass leaves every key at its
new value.  Conjunct two: delivering an event list over channels with no
listeners appends exactly those events to the log, in list order, without
touching the values.  Conjunct three: the contract instance — a bulk set
of two independent primary properties with default change predicates
fires exactly two change events, a then b, then exactly one settle event
listing a and b, and both values are assigned. -/
theorem C5_bulk_events :
    (∀ (entries : List (String × Val)) (s : MState) (k : String) (v : Val),
      (entries.map Prod.fst).Nodup → (k, v) ∈ entries → (∃ e, getProp s k = some e) →
      getVal (assignAll s entries).1 k = v) ∧
    (∀ (f : Nat) (evs : List ChangeEv) (s s' : MState),
      (∀ ev ∈ evs, listenersFor s.registry ev.1 = []) →
      run (f + 1) noopPV (.aFireList evs) s = some (s', none) →
      s'.log = s.log ++ evs.map (fun ev => Ev.changed ev.1 ev.2.1 ev.2.2) ∧
      s'.props = s.props) ∧
    (okLog (run 30 noopPV (.aSetBulk [("a", .vNum 1), ("b", .vNum 2)]) bulkState)
        = some (bulkState.log ++
            [.changed "a" (.vNum 1) (.vNum 0), .changed "b" (.vNum 2) (.vNum 0),
             .chainCompleted ["a", "b"]]) ∧
      okVal (run 30 noopPV (.aSetBulk [("a", .vNum 1), ("b", .vNum 2)]) bulkState) "a"
        = some (.vNum 1) ∧
      okVal (run 30 noopPV (.aSetBulk [("a", .vNum 1), ("b", .vNum 2)]) bulkState) "b"
        = some (.vNum 2)) := by
  refine ⟨?_, ?_, by decide, by decide, by decide⟩
  · intro entries
    induction entries with
    | nil => intro s k v _ hm _; cases hm
    | cons hd t ih =>
      obtain ⟨k0, v0⟩ := hd
      intro s k v hnd hm hex
      simp only [List.map_cons, List.nodup_cons] at hnd
      rcases List.mem_cons.mp hm with heq | hm2
      · injection heq with h1 h2
        subst h1
        subst h2
        rw [show (assignAll s ((k, v) :: t)).1 = (assignAll (setValue s k v) t).1 from
          by simp [assignAll]]
        rw [getVal_assignAll_not_mem t (setValue s k v) k hnd.1]
        obtain ⟨e, he⟩ := hex
        exact getVal_setValue_self v he
      · have hk0 : k ≠ k0 := by
          intro h
          subst h
          exact hnd.1 (List.mem_map.mpr ⟨(k, v), hm2, rfl⟩)
        rw [show (assignAll s ((k0, v0) :: t)).1 = (assignAll (setValue s k0 v0) t).1 from
          by simp [assignAll]]
        refine ih (setValue s k0 v0) k v hnd.2 hm2 ?_
        obtain ⟨e, he⟩ := hex
        exact ⟨e, by rw [getProp_setValue_ne v0 hk0]; exact he⟩
  · intro f evs
    induction evs generalizing f with
    | nil =>
      intro s s' _ hrun
      rw [run_fireList_nil] at hrun
      cases hrun
      exact ⟨by simp, rfl⟩
    | cons ev rest ih =>
      obtain ⟨name, nv, ov⟩ := ev
      intro s s' hnol hrun
      rcases run_fireList_cons_cases hrun with ⟨e, _, ho⟩ | ⟨s2, hh, hrest⟩
      · cases ho
      · have hn : listenersFor s.registry name = [] :=
          hnol (name, nv, ov) (List.mem_cons_self _ _)
        rw [hn] at hh
        cases f with
        | zero => simp [run] at hh
        | succ f' =>
          rw [run_handlers_nil] at hh
          cases hh
          obtain ⟨hlog, hprops⟩ := ih f' (firedStep s name nv ov) s'
            (fun ev2 hm2 => hnol ev2 (List.mem_cons_of_mem _ hm2)) hrest
          constructor
          · rw [hlog]
            show _ = s.log ++ (Ev.changed name nv ov :: _)
            rw [show (firedStep s name nv ov).log = s.log ++ [Ev.changed name nv ov] from rfl]
            simp
          · exact hprops

theorem C5_witness :
    getVal (assignAll bulkState [("a", Val.vNum 1), ("b", Val.vNum 2)]).1 "a" = .vNum 1 ∧
    ((okState (run 5 noopPV (.aFireList [("a", Val.vNum 1, Val.vNum 0)]) bulkState)).getD
        emptyState).log
      = bulkState.log ++ [Ev.changed "a" (.vNum 1) (.vNum 0)] := by
  constructor
  · exact C5_bulk_events.1 [("a", .vNum 1), ("b", .vNum 2)] bulkState "a" (.vNum 1)
      (by decide) (by decide)
      ⟨⟨.vNum 0, false, fun v => v != Val.vNull, defaultDidChange⟩, rfl⟩
  · have hrun : run 5 noopPV (.aFireList [("a", Val.vNum 1, Val.vNum 0)]) bulkState
        = some ((okState (run 5 noopPV (.aFireList [("a", Val.vNum 1, Val.vNum 0)])
            bulkState)).getD emptyState, none) := by rfl
    have h := C5_bulk_events.2.1 4 [("a", Val.vNum 1, Val.vNum 0)] bulkState _
      (fun ev _ => by rw [show bulkState.registry = [] from rfl]; rfl) hrun
    simpa using h.1

theorem C1_amended_witness :
    okVal (run 12 noopPV (.aSet "w" (.vNum 5))
      (pairState (fun x => x) (fun _ nv _ => nv) defaultDidChange defaultDidChange
        (.vNum 0) (.vNum 0))) "w" = some (.vNum 5) := by
  obtain ⟨s', hrun, hw, _, _, _⟩ := C1_amended 0 (fun x => x) (fun _ nv _ => nv)
    defaultDidChange defaultDidChange (.vNum 0) (.vNum 0) (.vNum 5)
  have hrun12 : run 12 noopPV (.aSet "w" (.vNum 5))
      (pairState (fun x => x) (fun _ nv _ => nv) defaultDidChange defaultDidChange
        (.vNum 0) (.vNum 0)) = some (s', none) := hrun
  simp [okVal, okState, hrun12, hw]

theorem countChain_append (a b : List Ev) :
    countChain (a ++ b) = countChain a + countChain b := by
  simp [countChain, List.filter_append]

theorem countChain_changed_cons (name : String) (nv ov : Val) (l : List Ev) :
    countChain (Ev.changed name nv ov :: l) = countChain l := by
  simp [countChain]

theorem changedNames_append (a b : List Ev) :
    changedNames (a ++ b) = changedNames a ++ changedNames b := by
  simp [changedNames]

theorem mem_addFired (l : List String) (n x : String) :
    x ∈ addFired l n ↔ x ∈ l ∨ x = n := by
  by_cases h : n ∈ l
  · simp only [addFired, if_pos h]
    constructor
    · exact Or.inl
    · rintro (hx | rfl)
      · exact hx
      · exact h
  · simp [addFired, if_neg h]

theorem addFired_ne_nil (l : List String) (n : String) : addFired l n ≠ [] := by
  by_cases h : n ∈ l
  · simp only [addFired, if_pos h]
    exact List.ne_nil_of_mem h
  · simp only [addFired, if_neg h]
    simp

theorem addFired_nodup (l : List String) (n : String) (h : l.Nodup) :
    (addFired l n).Nodup := by
  by_cases hm : n ∈ l
  · simpa [addFired, if_pos hm] using h
  · simp only [addFired, if_neg hm]
    rw [List.nodup_append]
    exact ⟨h, List.nodup_singleton n, fun a ha hn => hm (by
      simp only [List.mem_singleton] at hn
      rw [hn] at ha
      exact ha)⟩

theorem run_chain_inv : ∀ (fuel : Nat) (pv : PV) (act : Act) (s s' : MState),
    run fuel pv act s = some (s', none) →
    (s.firedProps ≠ [] ∨ ∃ evs, act = Act.aFireList evs) →
    ∃ mid, s'.log = s.log ++ mid ∧ countChain mid = 0 ∧
      (∀ x, x ∈ s'.firedProps ↔ x ∈ s.firedProps ∨ x ∈ changedNames mid) ∧
      (s.firedProps.Nodup → s'.firedProps.Nodup) := by
  intro fuel
  induction fuel with
  | zero => intro pv act s s' h _; cases h
  | succ f ih =>
    intro pv act s s' h hne
    match act with
    | .aSet name v =>
      have hnefp : s.firedProps ≠ [] := by
        rcases hne with hne | ⟨evs, hevs⟩
        · exact hne
        · cases hevs
      rcases run_set_cases h with
        ⟨_, _, ho⟩ | ⟨_, _, _, _, _, ho⟩ | ⟨_, _, _, _, _, ho⟩ |
        ⟨entry, _, _, _, _, hs, _⟩ | ⟨entry, _, _, _, _, hrun⟩
      · cases ho
      · cases ho
      · cases ho
      · subst hs
        exact ⟨[], by simp [setValue], rfl, fun x => by simp [setValue, changedNames], id⟩
      · obtain ⟨mid, hlog, hcc, hiff, hnd⟩ := ih _ _ (setValue s name v) _ hrun
          (Or.inl hnefp)
        exact ⟨mid, by simpa [setValue] using hlog, hcc, hiff, hnd⟩
    | .aSetBulk entries =>
      have hnefp : s.firedProps ≠ [] := by
        rcases hne with hne | ⟨evs, hevs⟩
        · exact hne
        · cases hevs
      rcases run_bulk_cases h with
        ⟨_, _, _, ho⟩ | ⟨_, _, _, _, ho⟩ | ⟨_, _, _, _, _, ho⟩ | ⟨_, _, _, hrun⟩
      · cases ho
      · cases ho
      · cases ho
      · obtain ⟨_, ha2, _, ha4, _⟩ := assignAll_pres entries s
        obtain ⟨mid, hlog, hcc, hiff, hnd⟩ := ih _ _ (assignAll s entries).1 _ hrun
          (Or.inl (by rw [ha4]; exact hnefp))
        refine ⟨mid, by rw [hlog, ha2], hcc, fun x => ?_, fun hh => hnd (by rw [ha4]; exact hh)⟩
        rw [hiff x, ha4]
    | .aFire evs =>
      have hnefp : s.firedProps ≠ [] := by
        rcases hne with hne | ⟨evs2, hevs⟩
        · exact hne
        · cases hevs
      rcases run_fire_cases h with ⟨e, _, ho⟩ | ⟨s1, hfl, _, hcase⟩
      · cases ho
      · rcases hcase with ⟨hemp, _⟩ | ⟨_, hs⟩
        · exact absurd hemp hnefp
        · subst hs
          exact ih _ _ s _ hfl (Or.inr ⟨evs, rfl⟩)
    | .aFireList evs =>
      match evs with
      | [] =>
        rw [run_fireList_nil] at h
        cases h
        exact ⟨[], by simp, rfl, fun x => by simp [changedNames], id⟩
      | (name, nv, ov) :: rest =>
        rcases run_fireList_cons_cases h with ⟨e, _, ho⟩ | ⟨s2, hrh, hrest⟩
        · cases ho
        · have hne1 : (firedStep s name nv ov).firedProps ≠ [] := addFired_ne_nil _ _
          obtain ⟨mid1, hlog1, hcc1, hiff1, hnd1⟩ :=
            ih _ _ (firedStep s name nv ov) _ hrh (Or.inl hne1)
          obtain ⟨mid2, hlog2, hcc2, hiff2, hnd2⟩ :=
            ih _ _ s2 _ hrest (Or.inr ⟨rest, rfl⟩)
          refine ⟨Ev.changed name nv ov :: (mid1 ++ mid2), ?_, ?_, ?_, ?_⟩
          · rw [hlog2, hlog1]
            show _ = s.log ++ (Ev.changed name nv ov :: (mid1 ++ mid2))
            rw [show (firedStep s name nv ov).log = s.log ++ [Ev.changed name nv ov] from rfl]
            simp
          · rw [countChain_changed_cons, countChain_append, hcc1, hcc2]
          · intro x
            rw [hiff2 x, hiff1 x]
            rw [show (firedStep s name nv ov).firedProps = addFired s.firedProps name from rfl]
            rw [mem_addFired]
            simp only [changedNames, List.filterMap_cons]
            simp only [changedNames] at *
            simp only [List.filterMap_append]
            constructor
            · rintro ((( hx | rfl) | hx) | hx)
              · exact Or.inl hx
              · exact Or.inr (by simp)
              · exact Or.inr (by simp [hx])
              · exact Or.inr (by simp [hx])
            · rintro (hx | hx)
              · exact Or.inl (Or.inl (Or.inl hx))
              · simp only [List.mem_cons, List.mem_append] at hx
                rcases hx with rfl | hx | hx
                · exact Or.inl (Or.inl (Or.inr rfl))
                · exact Or.inl (Or.inr hx)
                · exact Or.inr hx
          · intro hh
            exact hnd2 (hnd1 (addFired_nodup _ _ hh))
    | .aRunHandlers hs0 name nv ov =>
      have hnefp : s.firedProps ≠ [] := by
        rcases hne with hne | ⟨evs, hevs⟩
        · exact hne
        · cases hevs
      match hs0 with
      | [] =>
        rw [run_handlers_nil] at h
        cases h
        exact ⟨[], by simp, rfl, fun x => by simp [changedNames], id⟩
      | h0 :: rest =>
        rcases run_handlers_cons_cases h with ⟨e, _, ho⟩ | ⟨s1, hrun, hrest⟩
        · cases ho
        · obtain ⟨mid1, hlog1, hcc1, hiff1, hnd1⟩ := ih _ _ s _ hrun (Or.inl hnefp)
          have hne1 : s1.firedProps ≠ [] := by
            obtain ⟨x, hx⟩ := List.exists_mem_of_ne_nil _ hnefp
            exact List.ne_nil_of_mem ((hiff1 x).mpr (Or.inl hx))
          obtain ⟨mid2, hlog2, hcc2, hiff2, hnd2⟩ := ih _ _ s1 _ hrest (Or.inl hne1)
          refine ⟨mid1 ++ mid2, by rw [hlog2, hlog1, List.append_assoc], ?_, ?_, ?_⟩
          · rw [countChain_append, hcc1, hcc2]
          · intro x
            rw [hiff2 x, hiff1 x, changedNames_append]
            simp only [List.mem_append]
            tauto
          · intro hh
            exact hnd2 (hnd1 hh)
    | .aRunHandler h0 name nv ov =>
      have hnefp : s.firedProps ≠ [] := by
        rcases hne with hne | ⟨evs, hevs⟩
        · exact hne
        · cases hevs
      match h0 with
      | .hDerived target deps compute =>
        rw [run_handler_derived] at h
        exact ih _ _ s _ h (Or.inl hnefp)
      | .hViewCalc viewName viewOf calcView =>
        rw [run_handler_viewCalc] at h
        by_cases hmem : viewName ∈ s.triggered
        · rw [if_pos hmem] at h
          cases h
          exact ⟨[], by simp, rfl, fun x => by simp [changedNames], id⟩
        · rw [if_neg hmem] at h
          exact ih _ _ s _ h (Or.inl hnefp)
      | .hViewReduce viewName viewOf reduceBase =>
        rcases run_handler_viewReduce_cases h with ⟨e, _, ho⟩ | ⟨s2, hrun, hs, _⟩
        · cases ho
        · obtain ⟨mid1, hlog1, hcc1, hiff1, hnd1⟩ :=
            ih _ _ { s with triggered := viewName :: s.triggered } _ hrun (Or.inl hnefp)
          subst hs
          exact ⟨mid1, hlog1, hcc1, hiff1, hnd1⟩

theorem fire_outermost (F : Nat) (s1 s' : MState) (evs : List ChangeEv)
    (hout : s1.firedProps = [])
    (h : run F noopPV (.aFire evs) s1 = some (s', none)) :
    ∃ mid names, s'.log = s1.log ++ mid ++ [Ev.chainCompleted names] ∧
      countChain mid = 0 ∧ (∀ x, x ∈ names ↔ x ∈ changedNames mid) ∧
      names.Nodup ∧ s'.firedProps = [] := by
  cases F with
  | zero => cases h
  | succ F' =>
    rcases run_fire_cases h with ⟨e, _, ho⟩ | ⟨s2, hfl, _, hcase⟩
    · cases ho
    · rcases hcase with ⟨_, hs⟩ | ⟨hne, _⟩
      · obtain ⟨mid, hlog, hcc, hiff, hnd⟩ :=
          run_chain_inv F' noopPV (.aFireList evs) s1 s2 hfl (Or.inr ⟨evs, rfl⟩)
        subst hs
        refine ⟨mid, s2.firedProps, ?_, hcc, ?_, hnd (by rw [hout]; exact List.nodup_nil),
          rfl⟩
        · show s2.log ++ [Ev.chainCompleted s2.firedProps] = _
          rw [hlog, List.append_assoc]
        · intro x
          rw [hiff x, hout]
          simp
      · exact absurd hout hne

/-- Claim C3 (amended): an outermost set call that invokes the event
helper — every bulk set, and every single set whose change predicate
reports a change — emits exactly one aggregated prop-chain-completed
notification, as the final event of the call, after all nested recursive
activity has unwound; its payload lists exactly the names that changed
anywhere during the nested cascade, duplicates collapsed, and the batch
is cleared afterwards.  A single set whose change predicate reports no
change emits nothing at all, so no settle notification fires for it. -/
theorem C3_settle (fuel : Nat) (pv : PV) (s : MState) (op : Op) (s' : MState)
    (hout : s.firedProps = [])
    (hrun : runOp fuel pv op s = some (s', none)) :
    (opFiresDirect s op →
      ∃ mid names, s'.log = s.log ++ mid ++ [Ev.chainCompleted names] ∧
        countChain mid = 0 ∧ (∀ x, x ∈ names ↔ x ∈ changedNames mid) ∧
        names.Nodup ∧ s'.firedProps = []) ∧
    (¬ opFiresDirect s op → s'.log = s.log ∧ s'.firedProps = s.firedProps) := by
  match op with
  | .single name v =>
    cases fuel with
    | zero => cases hrun
    | succ F =>
      rcases run_set_cases hrun with
        ⟨_, _, ho⟩ | ⟨_, _, _, _, _, ho⟩ | ⟨_, _, _, _, _, ho⟩ |
        ⟨entry, hg, _, _, hdc, hs, _⟩ | ⟨entry, hg, _, _, hdc, hrun2⟩
      · cases ho
      · cases ho
      · cases ho
      · constructor
        · intro hfd
          obtain ⟨e2, hg2, hdc2⟩ := hfd
          rw [hg] at hg2
          cases hg2
          rw [hdc] at hdc2
          cases hdc2
        · intro _
          subst hs
          exact ⟨by simp [setValue], by simp [setValue]⟩
      · constructor
        · intro _
          have hout1 : (setValue s name v).firedProps = [] := hout
          obtain ⟨mid, names, hlog, hcc, hiff, hnd, hfp⟩ :=
            fire_outermost F (setValue s name v) s' _ hout1 hrun2
          exact ⟨mid, names, by simpa [setValue] using hlog, hcc, hiff, hnd, hfp⟩
        · intro hnf
          exact absurd ⟨entry, hg, hdc⟩ hnf
  | .bulk entries =>
    cases fuel with
    | zero => cases hrun
    | succ F =>
      rcases run_bulk_cases hrun with
        ⟨_, _, _, ho⟩ | ⟨_, _, _, _, ho⟩ | ⟨_, _, _, _, _, ho⟩ | ⟨_, _, _, hrun2⟩
      · cases ho
      · cases ho
      · cases ho
      · constructor
        · intro _
          obtain ⟨_, ha2, _, ha4, _⟩ := assignAll_pres entries s
          obtain ⟨mid, names, hlog, hcc, hiff, hnd, hfp⟩ :=
            fire_outermost F (assignAll s entries).1 s' _ (by rw [ha4]; exact hout) hrun2
          exact ⟨mid, names, by rw [hlog, ha2], hcc, hiff, hnd, hfp⟩
        · intro hnf
          exact absurd trivial hnf

theorem C3_settle_witness :
    ∃ mid names,
      ((okState (run 30 noopPV (.aSet "a" (.vNum 1)) onePropState)).getD emptyState).log
        = onePropState.log ++ mid ++ [Ev.chainCompleted names] ∧
      countChain mid = 0 ∧ (∀ x, x ∈ names ↔ x ∈ changedNames mid) ∧ names.Nodup ∧
      ((okState (run 30 noopPV (.aSet "a" (.vNum 1)) onePropState)).getD
          emptyState).firedProps = [] := by
  have hrun : runOp 30 noopPV (.single "a" (.vNum 1)) onePropState
      = some ((okState (run 30 noopPV (.aSet "a" (.vNum 1)) onePropState)).getD emptyState,
        none) := by rfl
  exact (C3_settle 30 noopPV onePropState (.single "a" (.vNum 1)) _ rfl hrun).1
    ⟨⟨.vNum 0, false, alwaysOk, defaultDidChange⟩, rfl, by decide⟩

end PropsModel
